import Mathlib

/-!
# Verification of the Clay-scraper data-capture and normalization pipeline

A shallow embedding of the core of the Clay table-extractor browser
extension: the JSON value flattener, the table-shape detector, the API
table assembler, the background capture state machine, the row merger,
the grid traversal offset computation, and the CSV serializer, together
with proofs about the behaviour specified for them.

JavaScript strings are modelled as Lean `String` (or `List Char` for the
CSV serializer, where character-level splitting is reasoned about), JS
numbers appearing in payload data as `Int` (the payloads relevant here
carry integral numbers), scroll geometry as `ℚ` (exact arithmetic in
place of IEEE doubles), and JS `Map`/object literals as insertion-ordered
association lists, matching JS iteration-order guarantees.

Functions whose JS originals recurse through nested arrays/objects are
embedded with an explicit fuel argument (structural recursion on the
fuel); fuel-irrelevance above the structural size of the argument is
proved below, so the fuel is a proof device, not a semantic cap.
-/

namespace ClayScraper

/-- A JSON value as delivered by `JSON.parse` on a captured response body:
null, booleans, numbers, strings, arrays and objects (objects keep their
own-key insertion order). -/
inductive JValue where
  | jnull
  | jbool (b : Bool)
  | jnum (n : Int)
  | jstr (s : String)
  | jarr (xs : List JValue)
  | jobj (kvs : List (String × JValue))

namespace JValue

/-- True when the JS typeof test reports object and the value is not null:
arrays and plain objects. -/
def isObjectLike : JValue → Bool
  | jarr _ => true
  | jobj _ => true
  | _ => false

/-- A non-array, non-null object (a plain JS object). -/
def isPlainObject : JValue → Bool
  | jobj _ => true
  | _ => false

/-- `Object.keys(v)`: own keys of an object in insertion order; for an
array, its indices as decimal strings; empty for primitives. -/
def jsKeys : JValue → List String
  | jobj kvs => kvs.map Prod.fst
  | jarr xs => (List.range xs.length).map (fun i => toString i)
  | _ => []

/-- JS property read `v[k]`, returning `none` for `undefined`: object key
lookup, or an array element when `k` is the canonical decimal form of an
index in range. -/
def jsGet : JValue → String → Option JValue
  | jobj kvs, k => (kvs.find? (fun kv => kv.1 = k)).map Prod.snd
  | jarr xs, k =>
      match k.toNat? with
      | some i => if toString i = k then xs.get? i else none
      | none => none
  | _, _ => none

end JValue

open JValue

/-- `String(v)` for a JS value (fuelled for nested arrays):
`String(null) = "null"`, booleans and numbers in literal form, arrays via
arrays joined by commas as in Array.prototype.join with null elements
rendered empty, plain
objects as `"[object Object]"`. -/
def jsToString : Nat → JValue → String
  | 0, _ => ""
  | _ + 1, jnull => "null"
  | _ + 1, jbool b => if b then "true" else "false"
  | _ + 1, jnum n => toString n
  | _ + 1, jstr s => s
  | fuel + 1, jarr xs =>
      String.intercalate ","
        (xs.map (fun v => match v with
          | jnull => ""
          | w => jsToString fuel w))
  | _ + 1, jobj _ => "[object Object]"

/-- The body characters of `JSON.stringify` of a string: `\` and `"`
escaped, common control characters in escape form. -/
def jsonEscapeChar (c : Char) : List Char :=
  if c = '"' then ['\\', '"']
  else if c = '\\' then ['\\', '\\']
  else if c = '\n' then ['\\', 'n']
  else if c = '\r' then ['\\', 'r']
  else if c = '\t' then ['\\', 't']
  else [c]

/-- `JSON.stringify` of a string value. -/
def jsonQuote (s : String) : String :=
  "\"" ++ String.mk (s.data.flatMap jsonEscapeChar) ++ "\""

/-- Compact `JSON.stringify` of a JSON value (fuelled). -/
def jsonStringify : Nat → JValue → String
  | 0, _ => ""
  | _ + 1, jnull => "null"
  | _ + 1, jbool b => if b then "true" else "false"
  | _ + 1, jnum n => toString n
  | _ + 1, jstr s => jsonQuote s
  | fuel + 1, jarr xs =>
      "[" ++ String.intercalate "," (xs.map (jsonStringify fuel)) ++ "]"
  | fuel + 1, jobj kvs =>
      "\x7b" ++
        String.intercalate ","
          (kvs.map (fun kv => jsonQuote kv.1 ++ ":" ++ jsonStringify fuel kv.2)) ++
      "\x7d"

/-- `flattenValue` from `background.js`: reduces an arbitrary JSON value
to a single display string (fuelled; `flattenValue_fuel_irrelevant` below
shows the fuel is immaterial once it reaches the structural size).
`none` plays the part of JS `undefined`. -/
def flattenValue : Nat → JValue → String
  | 0, _ => ""
  | _ + 1, jnull => ""
  | _ + 1, jstr s => s
  | _ + 1, jnum n => toString n
  | _ + 1, jbool b => if b then "true" else "false"
  | fuel + 1, jarr xs =>
      if xs.isEmpty then ""
      else if xs.all (fun v => !v.isObjectLike) then
        -- array of primitives: joined by semicolon-space, null rendered empty
        String.intercalate "; "
          (xs.map (fun v => match v with
            | jnull => ""
            | w => jsToString fuel w))
      else
        String.intercalate "; " (xs.map (flattenValue fuel))
  | fuel + 1, jobj kvs =>
      -- common patterns for enriched data objects, in source order
      match (jobj kvs).jsGet "value" with
      | some v => flattenValue fuel v
      | none =>
      match (jobj kvs).jsGet "text" with
      | some v => flattenValue fuel v
      | none =>
      match (jobj kvs).jsGet "name" with
      | some v => flattenValue fuel v
      | none =>
      match (jobj kvs).jsGet "label" with
      | some v => flattenValue fuel v
      | none =>
      match (jobj kvs).jsGet "title" with
      | some v => flattenValue fuel v
      | none =>
      match (jobj kvs).jsGet "display" with
      | some v => flattenValue fuel v
      | none =>
      match (jobj kvs).jsGet "url" with
      | some v => jsToString fuel v
      | none =>
      match (jobj kvs).jsGet "href" with
      | some v => jsToString fuel v
      | none =>
      match (jobj kvs).jsGet "email" with
      | some v => jsToString fuel v
      | none =>
      match (jobj kvs).jsGet "phone" with
      | some v => jsToString fuel v
      | none =>
      let keys := (jobj kvs).jsKeys
      if keys.length ≤ 4 then
        String.intercalate ", "
          (keys.map (fun k => k ++ ": " ++
            (match (jobj kvs).jsGet k with
             | some v => flattenValue fuel v
             | none => "")))
      else
        jsonStringify (fuel + 1) (jobj kvs)

/-- `flattenValue(item[h])` on a possibly-`undefined` property read:
`flattenValue(undefined)` is `""`. -/
def flattenProp (fuel : Nat) : Option JValue → String
  | some v => flattenValue fuel v
  | none => ""

/-! ## TableShapeDetector (`findAllTableArrays` in `background.js`) -/

/-- The in-place qualification test of `findAllTableArrays`: the array is
non-empty, its first element is a non-array non-null object with at least
2 own keys, and each of the first `min(5, length)` elements is
of JS object type and non-null with at least half the keys of the first element
(`overlap.length >= firstKeys.length * 0.5`, exact in rationals as
`2 * overlap ≥ firstKeys.length`). -/
def looksLikeTable (xs : List JValue) : Bool :=
  match xs with
  | [] => false
  | first :: _ =>
      first.isPlainObject &&
      (let firstKeys := first.jsKeys
       decide (2 ≤ firstKeys.length) &&
       (xs.take 5).all (fun item =>
         item.isObjectLike &&
         decide (firstKeys.length ≤
           2 * (firstKeys.filter (fun k => (item.jsKeys).contains k)).length)))

/-- Recursion core of `findAllTableArrays`, structurally recursive on the
remaining depth budget (the JS source checks `depth > 8` at entry; budget
`9 - depth` is the number of levels still allowed to run). -/
def findTablesAux : Nat → JValue → List (List JValue)
  | 0, _ => []
  | budget + 1, jarr xs =>
      (if looksLikeTable xs then [xs] else []) ++
      xs.flatMap (fun item =>
        if item.isObjectLike then findTablesAux budget item else [])
  | budget + 1, jobj kvs =>
      kvs.flatMap (fun kv => findTablesAux budget kv.2)
  | _ + 1, _ => []

/-- `findAllTableArrays(obj, depth)`: all table-candidate arrays embedded
in a JSON document, up to depth 8. -/
def findAllTableArrays (v : JValue) (depth : Nat) : List (List JValue) :=
  findTablesAux (9 - depth) v

/-! ## ApiTableAssembler (`extractHeadersFromObjects`, `parseApiResponsesToTable`) -/

/-- The fixed denylist of internal/metadata keys excluded from headers. -/
def skipKeys : List String :=
  ["__typename", "_id", "createdAt", "updatedAt", "created_at", "updated_at",
   "__v", "cursor", "node"]

/-- Append each element of `ks` not already present (`Set.add` on an
insertion-ordered set). -/
def addNewKeys (acc : List String) (ks : List String) : List String :=
  ks.foldl (fun a k => if a.contains k then a else a ++ [k]) acc

/-- `extractHeadersFromObjects`: keys of the first element (deduplicated,
insertion order), keys newly seen among elements 1 … `min(length,10) - 1`
that are of JS object type and non-null, then the denylist filtered out. -/
def extractHeadersFromObjects (arr : List JValue) : List String :=
  match arr with
  | [] => []
  | first :: rest =>
      let allKeys :=
        (rest.take 9).foldl
          (fun acc item =>
            if item.isObjectLike then addNewKeys acc item.jsKeys else acc)
          (addNewKeys [] first.jsKeys)
      allKeys.filter (fun k => !skipKeys.contains k)

/-- A finalized header/row table (`{ headers, rows }`). -/
structure Table where
  headers : List String
  rows : List (List String)

/-- A captured API payload as stored in `capturedData.apiResponses`
(timestamp and URL omitted: they never influence the pipeline). -/
structure Payload where
  data : JValue
  hasTableData : Bool

/-- `parseApiResponsesToTable(responses)`: over every response and every
candidate array found in it, build its header/row table and keep the
first one with the strictly largest row count. -/
def parseApiResponsesToTable (fuel : Nat) (responses : List Payload) : Option Table :=
  responses.foldl
    (fun best resp =>
      (findAllTableArrays resp.data 0).foldl
        (fun best tableData =>
          if tableData.length = 0 then best
          else
            let headers := extractHeadersFromObjects tableData
            if headers.length = 0 then best
            else
              let rows := tableData.map (fun item =>
                headers.map (fun h => flattenProp fuel (item.jsGet h)))
              match best with
              | none => some ⟨headers, rows⟩
              | some b =>
                  if rows.length > b.rows.length then some ⟨headers, rows⟩
                  else some b)
        best)
    none

/-! ## Background capture state (`background.js` message handlers) -/

/-- The mutable background state relevant to captures (`capturedData`);
`capturedAt` and `sourceUrl` are bookkeeping with no influence on the
stored table and are omitted. -/
structure CapturedData where
  apiResponses : List Payload
  parsedTable : Option Table
  method : Option String

/-- The initial background state (also the state after `CLEAR_DATA`). -/
def initialCapturedData : CapturedData :=
  { apiResponses := [], parsedTable := none, method := none }

/-- The buffer-management half of `handleApiCapture`: tabular payloads are
unshifted to the front, others pushed to the back, then the list is capped
to its first 100 entries. -/
def appendCapture (responses : List Payload) (p : Payload) : List Payload :=
  let responses0 := if p.hasTableData then p :: responses else responses ++ [p]
  if responses0.length > 100 then responses0.take 100 else responses0

/-- `handleApiCapture(payload)`: store the payload (capped, tabular-first)
and, when it is flagged tabular, auto-parse; the parse result replaces the
stored table only when it is non-empty and at least as large. -/
def handleApiCapture (fuel : Nat) (st : CapturedData) (p : Payload) : CapturedData :=
  let responses := appendCapture st.apiResponses p
  let st1 := { st with apiResponses := responses }
  if p.hasTableData then
    match parseApiResponsesToTable fuel responses with
    | some parsed =>
        if parsed.rows.length > 0 then
          match st1.parsedTable with
          | none => { st1 with parsedTable := some parsed, method := some "api" }
          | some old =>
              if old.rows.length ≤ parsed.rows.length then
                { st1 with parsedTable := some parsed, method := some "api" }
              else st1
        else st1
    | none => st1
  else st1

/-- `handleUseApiData`: re-parse the stored responses; any non-empty
result replaces the stored table (no row-count comparison), a failed or
empty parse leaves the state unchanged (an error is reported instead). -/
def handleUseApiData (fuel : Nat) (st : CapturedData) : CapturedData × Bool :=
  if st.apiResponses.length = 0 then (st, false)
  else
    match parseApiResponsesToTable fuel st.apiResponses with
    | some parsed =>
        if parsed.rows.length > 0 then
          ({ st with parsedTable := some parsed, method := some "api" }, true)
        else (st, false)
    | none => (st, false)

/-- The state update in `forwardToContentScript` when a DOM scrape
responds: a successful result replaces the stored table unconditionally,
a failure leaves the state unchanged. -/
def applyScrapeResult (st : CapturedData) (result : Option (Table × String)) :
    CapturedData :=
  match result with
  | some (t, method) => { st with parsedTable := some t, method := some method }
  | none => st

/-! ## RowMerger (`mergeRows` in `content.js`) -/

/-- One row observation: the data-index of the row and its captured cells, a
`Map<fieldId, value>` modelled as an insertion-ordered association list. -/
structure RowData where
  index : Int
  cells : List (String × String)

/-- A JS `Map` `has`, on an insertion-ordered association list (used both
for cell maps and for the row accumulator). -/
def cellsHas {β : Type} (cells : List (String × β)) (fid : String) : Bool :=
  cells.any (fun kv => kv.1 = fid)

/-- A JS `Map` `get` (first — and in a real JS `Map`, only — entry for a
key). -/
def cellsGet {β : Type} (cells : List (String × β)) (fid : String) : Option β :=
  (cells.find? (fun kv => kv.1 = fid)).map Prod.snd

/-- A JS `Map` `set`: update the existing entry in place, else append. -/
def cellsSet {β : Type} (cells : List (String × β)) (fid : String) (val : β) :
    List (String × β) :=
  if cellsHas cells fid then
    cells.map (fun kv => if kv.1 = fid then (kv.1, val) else kv)
  else cells ++ [(fid, val)]

/-- The per-cell guard of `mergeRows`: write the incoming cell only when
it is non-empty (truthy) and the accumulated slot is absent or the empty
string. -/
def fillCell (cs : List (String × String)) (kv : String × String) :
    List (String × String) :=
  if kv.2 ≠ "" ∧ (cellsHas cs kv.1 = false ∨ cellsGet cs kv.1 = some "") then
    cellsSet cs kv.1 kv.2
  else cs

/-- The inner loop of `mergeRows` for one already-present key: fill each
incoming cell under the guard; the accumulated `index` is untouched. -/
def mergeInto (existing incoming : RowData) : RowData :=
  { existing with cells := incoming.cells.foldl fillCell existing.cells }

/-- How an accumulated observation may lawfully evolve during merging:
the original index is retained, non-empty cells are never changed, and
any cell not present in the original was filled with a non-empty value
into a slot that was absent or empty. -/
def mergeEvolves (old new : RowData) : Prop :=
  new.index = old.index ∧
  (∀ fid v, cellsGet old.cells fid = some v → v ≠ "" →
      cellsGet new.cells fid = some v) ∧
  (∀ fid v, cellsGet new.cells fid = some v →
      cellsGet old.cells fid = some v ∨
        (v ≠ "" ∧ (cellsGet old.cells fid = none ∨
          cellsGet old.cells fid = some "")))

/-- One iteration of `mergeRows` over a source entry. -/
def mergeRowsStep (target : List (String × RowData)) (entry : String × RowData) :
    List (String × RowData) :=
  if target.any (fun e => e.1 = entry.1) then
    target.map (fun e => if e.1 = entry.1 then (e.1, mergeInto e.2 entry.2) else e)
  else target ++ [entry]

/-- `mergeRows(target, source)`: fold every source observation into the
accumulator (new keys appended wholesale, existing keys merged cell-wise). -/
def mergeRows (target source : List (String × RowData)) : List (String × RowData) :=
  source.foldl mergeRowsStep target

/-! ## GridTraversalController (`scrapeAllRowsByScrolling` offsets) -/

/-- `Math.max(clientWidth * 0.6, 300)`. -/
def horizontalStep (clientWidth : ℚ) : ℚ := max (clientWidth * (6 / 10)) 300

/-- The `while (hPos < maxScrollLeft)` push loop, with an explicit fuel
that is an upper bound on the number of iterations (proved exact by the
characterization theorem below). -/
def hScanLoop : Nat → ℚ → ℚ → ℚ → List ℚ
  | 0, _, _, _ => []
  | fuel + 1, hPos, step, maxL =>
      if hPos < maxL then hPos :: hScanLoop fuel (hPos + step) step maxL else []

/-- The ordered list of horizontal scroll offsets visited by
`scrapeAllRowsByScrolling`: `[0]` alone when `maxScrollLeft ≤ 10`, else
`0`, the successive steps below `maxScrollLeft`, then `maxScrollLeft`. -/
def hPositions (clientWidth maxScrollLeft : ℚ) : List ℚ :=
  let step := horizontalStep clientWidth
  if maxScrollLeft > 10 then
    0 :: (hScanLoop (⌈maxScrollLeft / step⌉.toNat + 1) step step maxScrollLeft ++
          [maxScrollLeft])
  else [0]

/-! ## TableSerializer (`applyRange`, `generateCSV` in `background.js`) -/

/-- A 1-indexed inclusive row range (`{start, end}`; the `end` field is
called `stop` because `end` is reserved in Lean). -/
structure RowRange where
  start : Int
  stop : Int

/-- `Array.prototype.slice(s, e)` with JS index normalization: negative
indices wrap from the end, indices are clamped to `[0, length]`. -/
def jsSlice {α : Type} (l : List α) (s e : Int) : List α :=
  let len : Int := l.length
  let s' := if s < 0 then max (len + s) 0 else min s len
  let e' := if e < 0 then max (len + e) 0 else min e len
  (l.take e'.toNat).drop s'.toNat

/-- `applyRange(rows, range)`: all rows when the range is absent,
otherwise `rows.slice(range.start - 1, range.end)`. -/
def applyRange {α : Type} (rows : List α) : Option RowRange → List α
  | none => rows
  | some r => jsSlice rows (r.start - 1) r.stop

/-- CSV field escaping: wrap in double quotes, double internal quotes
at character level. -/
def escapeCSVField (s : List Char) : List Char :=
  '"' :: (s.flatMap (fun c => if c = '"' then ['"', '"'] else [c]) ++ ['"'])

/-- The UTF-8 byte-order mark prepended to generated CSV. -/
def bomChar : Char := Char.ofNat 0xFEFF

/-- One CSV data line: the row padded/truncated to the header count
(missing cells become the empty string), each field escaped, joined by
commas. -/
def csvRowLine (headers : List String) (row : List String) : List Char :=
  List.intercalate [','] ((List.range headers.length).map
    (fun i => escapeCSVField ((row.get? i).getD "").data))

/-- `generateCSV(headers, rows)` at character level: optional metadata
block, header line, data lines, CRLF-joined, BOM-prefixed. -/
def generateCSV (metadata : Option (List (String × String)))
    (headers : List String) (rows : List (List String)) : List Char :=
  let metaLines : List (List Char) :=
    match metadata with
    | some md =>
        "\"--- SEARCH PARAMETERS ---\"".data ::
        (md.map (fun kv =>
          List.intercalate [','] [escapeCSVField kv.1.data, escapeCSVField kv.2.data]) ++
         ["\"---\"".data, []])
    | none => []
  let headerLine := List.intercalate [','] (headers.map (fun h => escapeCSVField h.data))
  let rowLines := rows.map (csvRowLine headers)
  bomChar :: List.intercalate ['\r', '\n'] (metaLines ++ headerLine :: rowLines)

/-! ### The naive CSV reader described by the specification
(strip the BOM, split on CRLF, split each line on commas, unquote each
field) — the claim-side definition for the round-trip property. -/

/-- Split on a single character, keeping empty segments. -/
def splitOnChar (c : Char) : List Char → List (List Char)
  | [] => [[]]
  | a :: rest =>
      if a = c then [] :: splitOnChar c rest
      else
        match splitOnChar c rest with
        | hd :: tl => (a :: hd) :: tl
        | [] => [[a]]

/-- Split on the two-character CRLF separator, keeping empty segments. -/
def splitCRLF : List Char → List (List Char)
  | [] => [[]]
  | [c] => [[c]]
  | c1 :: c2 :: rest =>
      if c1 = '\r' ∧ c2 = '\n' then [] :: splitCRLF rest
      else
        match splitCRLF (c2 :: rest) with
        | hd :: tl => (c1 :: hd) :: tl
        | [] => [[c1]]

/-- Undo quote doubling: each `""` pair becomes one `"`. -/
def undoubleQuotes : List Char → List Char
  | [] => []
  | [c] => [c]
  | c1 :: c2 :: rest =>
      if c1 = '"' ∧ c2 = '"' then '"' :: undoubleQuotes rest
      else c1 :: undoubleQuotes (c2 :: rest)

/-- Unquote one CSV field: strip one surrounding quote pair when present
and undo quote doubling inside. -/
def unquoteCSVField (s : List Char) : List Char :=
  match s with
  | '"' :: rest =>
      if rest ≠ [] ∧ rest.getLast? = some '"' then undoubleQuotes rest.dropLast
      else s
  | _ => s

/-- The reader described by the specification: strip the BOM, split into lines on CRLF,
split each line on commas, unquote each field. -/
def parseCSV (content : List Char) : List (List (List Char)) :=
  let body :=
    match content with
    | c :: rest => if c = bomChar then rest else content
    | [] => []
  (splitCRLF body).map (fun line => (splitOnChar ',' line).map unquoteCSVField)

/-! ## Claim-side (specification-worded) definitions -/

/-- The table-candidate predicate exactly as the claim words it: length at
least 1, first element a non-array non-null object with at least 2 own
keys, and each of the first `min(5, length)` elements an object sharing at
least 50 percent of the keys of the first element. -/
def specTableCandidate (xs : List JValue) : Prop :=
  1 ≤ xs.length ∧
  ∃ first, xs.head? = some first ∧ first.isPlainObject = true ∧
    2 ≤ first.jsKeys.length ∧
    ∀ item ∈ xs.take 5, item.isPlainObject = true ∧
      first.jsKeys.length ≤
        2 * (first.jsKeys.filter (fun k => (item.jsKeys).contains k)).length

/-- The amended table-candidate predicate: as `specTableCandidate` but the
sampled elements only need to be of JS object type (object or array) and
non-null, matching the typeof test in the source. -/
def specTableCandidateAmended (xs : List JValue) : Prop :=
  1 ≤ xs.length ∧
  ∃ first, xs.head? = some first ∧ first.isPlainObject = true ∧
    2 ≤ first.jsKeys.length ∧
    ∀ item ∈ xs.take 5, item.isObjectLike = true ∧
      first.jsKeys.length ≤
        2 * (first.jsKeys.filter (fun k => (item.jsKeys).contains k)).length

/-- Headers as the claim words them: the ordered union of keys over the
first `min(10, length)` elements (keys of the first element in their own
order, then keys newly seen in subsequent elements), with the denylist
keys removed. -/
def specOrderedUnionHeaders (arr : List JValue) : List String :=
  ((arr.take 10).foldl (fun acc item => addNewKeys acc item.jsKeys) []).filter
    (fun k => !skipKeys.contains k)

/-- The ten priority keys the flattener tries on objects, in source order. -/
def priorityKeys : List String :=
  ["value", "text", "name", "label", "title", "display", "url", "href", "email", "phone"]

/-- The first six priority keys, whose hit is recursively flattened (the
remaining four are rendered with the JS String conversion instead). -/
def flattenedPriorityKeys : List String :=
  ["value", "text", "name", "label", "title", "display"]

/-- The successive positive multiples of `step` that are strictly below
`maxL`, in increasing order (the claim-side description of the middle
horizontal offsets). -/
def stepMultiplesBelow (step maxL : ℚ) : List ℚ :=
  (List.range ((⌈maxL / step⌉).toNat - 1)).map (fun (k : ℕ) => ((k : ℚ) + 1) * step)

/-- A field without CSV-breaking characters: no comma, no CR, no LF (the
hypothesis under which the naive reader of the specification inverts the
writer). -/
def csvSafe (s : String) : Prop :=
  ',' ∉ s.data ∧ '\r' ∉ s.data ∧ '\n' ∉ s.data

instance csvSafe_decidable (s : String) : Decidable (csvSafe s) :=
  decidable_of_iff (',' ∉ s.data ∧ '\r' ∉ s.data ∧ '\n' ∉ s.data) (by rw [csvSafe])

/-- Tier ordering of the capture batch: every tabular-flagged entry
precedes every non-flagged entry. -/
def tierOrdered : List Payload → Bool
  | [] => true
  | p :: rest =>
      if p.hasTableData then tierOrdered rest
      else rest.all (fun q => !q.hasTableData)

/-- A whole session of captures folded into the batch from the empty
initial state. -/
def runCaptureBatch (ps : List Payload) : List Payload :=
  ps.foldl appendCapture []

/-! ## Concrete fixtures used by the claims -/

/-- Ten rows `r1` … `r10` for the range-slicing examples. -/
def rows10 : List (List String) :=
  (List.range 10).map (fun i => ["r" ++ toString (i + 1)])

/-- The end-to-end API payload of the specification:
two items with keys id, name and a denylisted `__typename`. -/
def apiPayloadEx : Payload :=
  { data := jobj [("data", jobj [("items", jarr
      [ jobj [("id", jnum 1), ("name", jstr "A"), ("__typename", jstr "X")],
        jobj [("id", jnum 2), ("name", jstr "B"), ("__typename", jstr "X")] ])])],
    hasTableData := true }

/-- An array whose first element is an object with numeric-string keys and
whose second element is an array: the source detector accepts it (arrays
pass the JS typeof object test), the claim predicate does not. -/
def weirdArr : List JValue :=
  [jobj [("0", jnum 1), ("1", jnum 2)], jarr [jnum 7, jnum 8]]

/-- An object with four numeric fields under the given key names. -/
def mk4 (a b c d : String) : JValue :=
  jobj [(a, jnum 1), (b, jnum 2), (c, jnum 3), (d, jnum 4)]

/-- Five objects sharing only one of the four keys of the first (25
percent overlap). -/
def arrShare1 : List JValue :=
  [mk4 "k1" "k2" "k3" "k4", mk4 "k1" "x2" "x3" "x4", mk4 "k1" "y2" "y3" "y4",
   mk4 "k1" "z2" "z3" "z4", mk4 "k1" "w2" "w3" "w4"]

/-- Five objects sharing two of the four keys of the first (50 percent
overlap). -/
def arrShare2 : List JValue :=
  [mk4 "k1" "k2" "k3" "k4", mk4 "k1" "k2" "x3" "x4", mk4 "k1" "k2" "y3" "y4",
   mk4 "k1" "k2" "z3" "z4", mk4 "k1" "k2" "w3" "w4"]

/-- One hundred and one non-tabular payloads, oldest first. -/
def evictEx : List Payload :=
  (List.range 101).map (fun i => { data := jnum i, hasTableData := false })

/-- A full batch of one hundred non-tabular payloads. -/
def fullNonTabBatch : List Payload :=
  (List.range 100).map (fun i => { data := jnum i, hasTableData := false })

/-- One more non-tabular payload. -/
def extraNonTab : Payload := { data := jnull, hasTableData := false }

/-- The merge example accumulator: rowA with f1 bound to x. -/
def accEx : List (String × RowData) :=
  [("rowA", { index := 0, cells := [("f1", "x")] })]

/-- The merge example incoming pass: rowA offering f1 = y and f2 = z (at a
different observed index, which must not be adopted). -/
def passEx : List (String × RowData) :=
  [("rowA", { index := 7, cells := [("f1", "y"), ("f2", "z")] })]

/-- A three-row table as produced by a DOM scrape. -/
def domTable3 : Table :=
  { headers := ["a"], rows := [["1"], ["2"], ["3"]] }

/-- State after a successful three-row DOM scroll scrape. -/
def stAfterDom : CapturedData :=
  applyScrapeResult initialCapturedData (some (domTable3, "dom_scroll"))

/-- The same two-row payload, relayed without the tabular flag. -/
def apiPayloadNoFlag : Payload :=
  { data := apiPayloadEx.data, hasTableData := false }

/-- State after the unflagged two-row payload arrives on top of the
three-row scrape. -/
def stAfterCapture : CapturedData :=
  handleApiCapture 5 stAfterDom apiPayloadNoFlag

/-! # Properties -/

/-! ## C6: row selection for serialization -/

lemma jsSlice_nonneg {α : Type} (l : List α) (s e : Int) (hs : 0 ≤ s) (he : 0 ≤ e) :
    jsSlice l s e = (l.take e.toNat).drop s.toNat := by
  unfold jsSlice
  have hs' : ¬s < 0 := not_lt.mpr hs
  have he' : ¬e < 0 := not_lt.mpr he
  simp only [hs', he', if_false]
  have hlen : (0 : Int) ≤ (l.length : Int) := by positivity
  have htake : l.take (min e (l.length : Int)).toNat = l.take e.toNat := by
    apply List.take_eq_take.mpr
    omega
  rw [htake]
  rcases le_or_lt s (l.length : Int) with h | h
  · have : (min s (l.length : Int)).toNat = s.toNat := by omega
    rw [this]
  · have h1 : (min s (l.length : Int)).toNat = l.length := by omega
    have h2 : (l.take e.toNat).length ≤ l.length := by
      simp [List.length_take]
    rw [h1, List.drop_eq_nil_of_le h2, List.drop_eq_nil_of_le (by omega)]

/-- C6: row selection returns all rows when the range is absent, and
otherwise exactly the zero-based slice `[start-1, end)` of the rows
(validated ranges have `start ≥ 1`, so no JS negative-index wrapping
arises); in particular on rows r1 … r10 the range 3–5 yields `[r3, r4, r5]`,
an absent range yields all ten, and 5–5 yields `[r5]`. -/
theorem applyRange_spec :
    (∀ (α : Type) (rows : List α) (r : RowRange), 1 ≤ r.start → 0 ≤ r.stop →
        applyRange rows (some r) =
          (rows.take r.stop.toNat).drop (r.start - 1).toNat) ∧
    (∀ (α : Type) (rows : List α), applyRange rows none = rows) ∧
    applyRange rows10 (some ⟨3, 5⟩) = [["r3"], ["r4"], ["r5"]] ∧
    applyRange rows10 none = rows10 ∧
    applyRange rows10 (some ⟨5, 5⟩) = [["r5"]] := by
  refine ⟨?_, fun α rows => rfl, rfl, rfl, rfl⟩
  intro α rows r h1 h2
  unfold applyRange
  exact jsSlice_nonneg rows (r.start - 1) r.stop (by omega) h2

/-- Witness for C6 at a concrete range. -/
theorem applyRange_spec_witness :
    applyRange rows10 (some ⟨3, 5⟩) =
      (rows10.take (5 : Int).toNat).drop ((3 : Int) - 1).toNat :=
  applyRange_spec.1 _ rows10 ⟨3, 5⟩ (by norm_num) (by norm_num)

/-! ## C9: horizontal scroll offsets -/

lemma horizontalStep_pos (w : ℚ) : 0 < horizontalStep w :=
  lt_of_lt_of_le (by norm_num) (le_max_right (w * (6 / 10)) 300)

lemma mult_lt_iff (step maxL : ℚ) (hstep : 0 < step) (k : ℕ) (hk : 1 ≤ k) :
    (k : ℚ) * step < maxL ↔ k ≤ (⌈maxL / step⌉).toNat - 1 := by
  rw [← lt_div_iff₀ hstep]
  have hcast : ((k : ℤ) : ℚ) = (k : ℚ) := by push_cast; ring
  rw [← hcast, ← Int.lt_ceil]
  omega

lemma hScanLoop_eq (step maxL : ℚ) (hstep : 0 < step) :
    ∀ (fuel j : ℕ), (⌈maxL / step⌉).toNat - 1 ≤ j + fuel →
      hScanLoop fuel (((j : ℚ) + 1) * step) step maxL =
        (List.range ((⌈maxL / step⌉).toNat - 1 - j)).map
          (fun (k : ℕ) => ((j : ℚ) + 1 + (k : ℚ)) * step) := by
  intro fuel
  induction fuel with
  | zero =>
      intro j hj
      have hz : (⌈maxL / step⌉).toNat - 1 - j = 0 := by omega
      rw [hz]
      rfl
  | succ fuel ih =>
      intro j hj
      by_cases hlt : ((j : ℚ) + 1) * step < maxL
      · have hle : j + 1 ≤ (⌈maxL / step⌉).toNat - 1 := by
          have hcast : ((j + 1 : ℕ) : ℚ) = (j : ℚ) + 1 := by push_cast; ring
          exact (mult_lt_iff step maxL hstep (j + 1) (by omega)).mp (by rw [hcast]; exact hlt)
        have hsplit : (⌈maxL / step⌉).toNat - 1 - j =
            ((⌈maxL / step⌉).toNat - 1 - (j + 1)) + 1 := by omega
        have harg : ((j : ℚ) + 1) * step + step = (((j + 1 : ℕ) : ℚ) + 1) * step := by
          push_cast; ring
        rw [hScanLoop, if_pos hlt, harg, ih (j + 1) (by omega), hsplit,
          List.range_succ_eq_map, List.map_cons, List.map_map]
        congr 1
        · push_cast; ring
        · apply List.map_congr_left
          intro k _
          simp only [Function.comp_apply]
          push_cast; ring
      · have hnotle : ¬ (j + 1 ≤ (⌈maxL / step⌉).toNat - 1) := by
          intro hle
          apply hlt
          have h2 := (mult_lt_iff step maxL hstep (j + 1) (by omega)).mpr hle
          have hcast : ((j + 1 : ℕ) : ℚ) = (j : ℚ) + 1 := by push_cast; ring
          rw [hcast] at h2
          exact h2
        have hz : (⌈maxL / step⌉).toNat - 1 - j = 0 := by omega
        rw [hScanLoop, if_neg hlt, hz]
        rfl

/-- C9: when `maxScrollLeft ≤ 10` the traversal visits the single offset 0;
otherwise it visits 0, then every positive multiple of the horizontal step
that is strictly below `maxScrollLeft` in increasing order, then
`maxScrollLeft` itself, so the right edge is always visited. -/
theorem hPositions_spec :
    (∀ w maxL : ℚ, maxL ≤ 10 → hPositions w maxL = [0]) ∧
    (∀ w maxL : ℚ, 10 < maxL →
        hPositions w maxL =
          0 :: (stepMultiplesBelow (horizontalStep w) maxL ++ [maxL])) ∧
    (∀ (w maxL x : ℚ),
        x ∈ stepMultiplesBelow (horizontalStep w) maxL ↔
          ∃ k : ℕ, 1 ≤ k ∧ x = (k : ℚ) * horizontalStep w ∧ x < maxL) := by
  refine ⟨?_, ?_, ?_⟩
  · intro w maxL h
    rw [hPositions, if_neg (not_lt.mpr h)]
  · intro w maxL h
    have hstep := horizontalStep_pos w
    rw [hPositions, if_pos h]
    congr 2
    have h0 : horizontalStep w = (((0 : ℕ) : ℚ) + 1) * horizontalStep w := by
      push_cast; ring
    calc hScanLoop ((⌈maxL / horizontalStep w⌉).toNat + 1) (horizontalStep w)
            (horizontalStep w) maxL
        = hScanLoop ((⌈maxL / horizontalStep w⌉).toNat + 1)
            ((((0 : ℕ) : ℚ) + 1) * horizontalStep w) (horizontalStep w) maxL := by
          rw [← h0]
      _ = (List.range ((⌈maxL / horizontalStep w⌉).toNat - 1 - 0)).map
            (fun (k : ℕ) => (((0 : ℕ) : ℚ) + 1 + (k : ℚ)) * horizontalStep w) :=
          hScanLoop_eq (horizontalStep w) maxL hstep _ 0 (by omega)
      _ = stepMultiplesBelow (horizontalStep w) maxL := by
          rw [stepMultiplesBelow]
          apply List.map_congr_left
          intro k _
          push_cast; ring
  · intro w maxL x
    have hstep := horizontalStep_pos w
    rw [stepMultiplesBelow]
    constructor
    · intro hx
      obtain ⟨a, ha, hax⟩ := List.mem_map.mp hx
      have halt : a < (⌈maxL / horizontalStep w⌉).toNat - 1 := List.mem_range.mp ha
      refine ⟨a + 1, by omega, ?_, ?_⟩
      · rw [← hax]; push_cast; ring
      · rw [← hax]
        have hm := (mult_lt_iff (horizontalStep w) maxL hstep (a + 1) (by omega)).mpr
          (by omega)
        have hcast : ((a + 1 : ℕ) : ℚ) = (a : ℚ) + 1 := by push_cast; ring
        rw [hcast] at hm
        exact hm
    · rintro ⟨k, hk1, hkx, hklt⟩
      have hkM := (mult_lt_iff (horizontalStep w) maxL hstep k hk1).mp (hkx ▸ hklt)
      apply List.mem_map.mpr
      refine ⟨k - 1, List.mem_range.mpr (by omega), ?_⟩
      rw [hkx]
      have hcast : ((k - 1 : ℕ) : ℚ) = (k : ℚ) - 1 := by
        push_cast [Nat.cast_sub hk1]; ring
      rw [hcast]
      ring

/-- Witness for C9 at width 1000 and extent 2000. -/
theorem hPositions_spec_witness :
    hPositions 1000 2000 =
      0 :: (stepMultiplesBelow (horizontalStep 1000) 2000 ++ [2000]) :=
  hPositions_spec.2.1 1000 2000 (by norm_num)

/-! ## C8: capture batch cap and eviction -/

lemma appendCapture_length (l : List Payload) (p : Payload) :
    (appendCapture l p).length ≤ 100 := by
  simp only [appendCapture]
  generalize (if p.hasTableData = true then p :: l else l ++ [p]) = pre
  split
  · simp [List.length_take]
  · omega

lemma tierOrdered_take (l : List Payload) (n : ℕ) (h : tierOrdered l = true) :
    tierOrdered (l.take n) = true := by
  induction l generalizing n with
  | nil => simp [tierOrdered]
  | cons p rest ih =>
      cases n with
      | zero => simp [tierOrdered]
      | succ n =>
          rw [List.take_succ_cons]
          rw [tierOrdered] at h ⊢
          by_cases hp : p.hasTableData
          · rw [if_pos hp] at h ⊢
            exact ih n h
          · rw [if_neg hp] at h ⊢
            rw [List.all_eq_true] at h ⊢
            intro x hx
            exact h x (List.take_subset n rest hx)

lemma tierOrdered_append_nontab (l : List Payload) (p : Payload)
    (hp : p.hasTableData = false) (h : tierOrdered l = true) :
    tierOrdered (l ++ [p]) = true := by
  induction l with
  | nil => simp [tierOrdered, hp]
  | cons q rest ih =>
      rw [List.cons_append, tierOrdered] at *
      by_cases hq : q.hasTableData
      · rw [if_pos hq] at h ⊢
        exact ih h
      · rw [if_neg hq] at h ⊢
        rw [List.all_append, h]
        simp [hp]

lemma appendCapture_tierOrdered (l : List Payload) (p : Payload)
    (h : tierOrdered l = true) : tierOrdered (appendCapture l p) = true := by
  have hpre : tierOrdered (if p.hasTableData then p :: l else l ++ [p]) = true := by
    by_cases hp : p.hasTableData
    · rw [if_pos hp, tierOrdered, if_pos hp]
      exact h
    · rw [if_neg hp]
      exact tierOrdered_append_nontab l p (by simp [hp]) h
  simp only [appendCapture]
  revert hpre
  generalize (if p.hasTableData = true then p :: l else l ++ [p]) = pre
  intro hpre
  split
  · exact tierOrdered_take _ 100 hpre
  · exact hpre

lemma runCaptureBatch_invariant (ps : List Payload) :
    (runCaptureBatch ps).length ≤ 100 ∧ tierOrdered (runCaptureBatch ps) = true := by
  unfold runCaptureBatch
  suffices h : ∀ l, l.length ≤ 100 → tierOrdered l = true →
      (ps.foldl appendCapture l).length ≤ 100 ∧
        tierOrdered (ps.foldl appendCapture l) = true by
    exact h [] (by simp) rfl
  induction ps with
  | nil => intro l h1 h2; exact ⟨h1, h2⟩
  | cons p rest ih =>
      intro l h1 h2
      rw [List.foldl_cons]
      exact ih (appendCapture l p) (appendCapture_length l p)
        (appendCapture_tierOrdered l p h2)

lemma all_nontab_tierOrdered (l : List Payload)
    (h : l.all (fun q => !q.hasTableData) = true) : tierOrdered l = true := by
  cases l with
  | nil => rfl
  | cons p rest =>
      rw [List.all_cons] at h
      rw [tierOrdered]
      have hp : p.hasTableData = false := by
        cases hcase : p.hasTableData
        · rfl
        · rw [hcase] at h; simp at h
      rw [if_neg (by simp [hp])]
      simp at h
      rw [List.all_eq_true]
      intro x hx
      simp [h.2 x hx]

lemma getLast_nontab_of_tierOrdered (l : List Payload) (h : tierOrdered l = true)
    (hany : l.any (fun x => !x.hasTableData) = true) :
    ∃ q, l.getLast? = some q ∧ q.hasTableData = false := by
  induction l with
  | nil => simp at hany
  | cons p rest ih =>
      cases rest with
      | nil =>
          simp at hany
          exact ⟨p, rfl, hany⟩
      | cons r t =>
          rw [List.getLast?_cons_cons]
          rw [tierOrdered] at h
          by_cases hp : p.hasTableData
          · rw [if_pos hp] at h
            apply ih h
            rw [List.any_cons] at hany
            simp [hp] at hany
            simp [hany]
          · rw [if_neg hp] at h
            apply ih (all_nontab_tierOrdered _ h)
            rw [List.all_cons] at h
            rw [List.any_cons]
            have : r.hasTableData = false := by
              cases hcase : r.hasTableData
              · rfl
              · rw [hcase] at h; simp at h
            simp [this]

/-- C8 (amended): a batch built by any sequence of captures never exceeds
100 entries and is always ordered with all tabular-flagged entries before
all unflagged ones; on a full batch the append drops exactly the last
entry of the candidate list, and that last entry is unflagged whenever any
unflagged entry is present — so eviction removes non-tabular entries
before tabular ones, but newest-first (not oldest-first) within the
non-tabular tier. -/
theorem captureBatch_spec :
    (∀ ps, (runCaptureBatch ps).length ≤ 100) ∧
    (∀ ps, tierOrdered (runCaptureBatch ps) = true) ∧
    (∀ l (p : Payload), l.length = 100 →
        appendCapture l p =
          (if p.hasTableData then p :: l else l ++ [p]).dropLast) ∧
    (∀ l (p : Payload), tierOrdered l = true →
        ((if p.hasTableData then p :: l else l ++ [p]).any
            (fun x => !x.hasTableData) = true) →
        ∃ q, (if p.hasTableData then p :: l else l ++ [p]).getLast? = some q ∧
          q.hasTableData = false) := by
  refine ⟨fun ps => (runCaptureBatch_invariant ps).1,
    fun ps => (runCaptureBatch_invariant ps).2, ?_, ?_⟩
  · intro l p hlen
    simp only [appendCapture]
    have hlenpre : (if p.hasTableData = true then p :: l else l ++ [p]).length = 101 := by
      split <;> simp [hlen]
    revert hlenpre
    generalize (if p.hasTableData = true then p :: l else l ++ [p]) = pre
    intro hlenpre
    rw [if_pos (by omega), List.dropLast_eq_take, hlenpre]
  · intro l p h hany
    apply getLast_nontab_of_tierOrdered _ _ hany
    by_cases hp : p.hasTableData
    · rw [if_pos hp, tierOrdered, if_pos hp]
      exact h
    · rw [if_neg hp]
      exact tierOrdered_append_nontab l p (by simp [hp]) h

/-- Witness for C8: a full batch of one hundred unflagged entries
receiving one more unflagged entry drops the last entry of the append
candidate. -/
theorem captureBatch_spec_witness :
    appendCapture fullNonTabBatch extraNonTab =
      (if extraNonTab.hasTableData then extraNonTab :: fullNonTabBatch
       else fullNonTabBatch ++ [extraNonTab]).dropLast :=
  captureBatch_spec.2.2.1 fullNonTabBatch extraNonTab (by rfl)

set_option maxRecDepth 20000 in
/-- C8 counterexample: one hundred and one non-tabular captures keep the
hundred oldest entries and evict the newest, not the oldest. -/
theorem captureBatch_counterexample :
    runCaptureBatch evictEx = evictEx.take 100 ∧
    evictEx.getLast? = some { data := jnum 100, hasTableData := false } ∧
    (runCaptureBatch evictEx).getLast? = some { data := jnum 99, hasTableData := false } ∧
    (runCaptureBatch evictEx).head? = some { data := jnum 0, hasTableData := false } :=
  ⟨rfl, rfl, rfl, rfl⟩

/-! ## C2: first-non-empty-writer-wins merging -/

lemma cellsGet_nil {β : Type} (k : String) : cellsGet ([] : List (String × β)) k = none := rfl

lemma cellsGet_cons {β : Type} (x : String × β) (rest : List (String × β)) (k : String) :
    cellsGet (x :: rest) k = if x.1 = k then some x.2 else cellsGet rest k := by
  simp only [cellsGet, List.find?_cons]
  by_cases h : x.1 = k
  · simp [h]
  · simp [h]

lemma cellsHas_eq_isSome {β : Type} (cells : List (String × β)) (k : String) :
    cellsHas cells k = (cellsGet cells k).isSome := by
  induction cells with
  | nil => rfl
  | cons x rest ih =>
      rw [cellsHas, List.any_cons, cellsGet_cons]
      by_cases h : x.1 = k
      · simp [h]
      · simp only [if_neg h]
        rw [cellsHas] at ih
        simp [h, ih]

lemma cellsGet_append_single {β : Type} (tgt : List (String × β)) (e : String × β)
    (k : String) :
    cellsGet (tgt ++ [e]) k =
      (match cellsGet tgt k with
       | some v => some v
       | none => if e.1 = k then some e.2 else none) := by
  induction tgt with
  | nil => rw [List.nil_append, cellsGet_nil, cellsGet_cons, cellsGet_nil]
  | cons x rest ih =>
      rw [List.cons_append, cellsGet_cons, cellsGet_cons]
      by_cases h : x.1 = k
      · simp [h]
      · simp only [if_neg h]
        exact ih

lemma cellsGet_map_set {β : Type} (fid : String) (v : β) (k : String)
    (cs : List (String × β)) :
    cellsGet (cs.map (fun kv => if kv.1 = fid then (kv.1, v) else kv)) k =
      if k = fid then (cellsGet cs k).map (fun _ => v) else cellsGet cs k := by
  induction cs with
  | nil => by_cases hk : k = fid <;> simp [cellsGet_nil, hk]
  | cons x rest ih =>
      rw [List.map_cons]
      by_cases hx : x.1 = fid
      · rw [if_pos hx, cellsGet_cons, cellsGet_cons]
        by_cases hk : x.1 = k
        · have hkf : k = fid := by rw [← hk]; exact hx
          simp [hk, hkf]
        · simp only [if_neg hk]
          exact ih
      · rw [if_neg hx, cellsGet_cons, cellsGet_cons]
        by_cases hk : x.1 = k
        · have hkf : ¬k = fid := by rw [← hk]; exact hx
          simp [hk, hkf]
        · simp only [if_neg hk]
          exact ih

lemma cellsGet_cellsSet {β : Type} (cs : List (String × β)) (fid : String) (v : β)
    (k : String) :
    cellsGet (cellsSet cs fid v) k = if k = fid then some v else cellsGet cs k := by
  unfold cellsSet
  by_cases hb : cellsHas cs fid
  · rw [if_pos hb, cellsGet_map_set]
    by_cases hk : k = fid
    · obtain ⟨w, hw⟩ : ∃ w, cellsGet cs fid = some w := by
        rw [cellsHas_eq_isSome] at hb
        exact Option.isSome_iff_exists.mp hb
      rw [if_pos hk, if_pos hk, hk, hw]
      rfl
    · rw [if_neg hk, if_neg hk]
  · rw [if_neg hb, cellsGet_append_single]
    have hnone : cellsGet cs fid = none := by
      rw [cellsHas_eq_isSome] at hb
      exact Option.not_isSome_iff_eq_none.mp (by simp [hb])
    by_cases hk : k = fid
    · rw [if_pos hk, hk, hnone]
      simp
    · rw [if_neg hk]
      rcases hget : cellsGet cs k with _ | w
      · have hfk : ¬fid = k := fun h => hk h.symm
        simp [hfk]
      · rfl

lemma fillCell_get (cs : List (String × String)) (kv : String × String) (k : String) :
    cellsGet (fillCell cs kv) k =
      if k = kv.1 ∧ kv.2 ≠ "" ∧
          (cellsGet cs kv.1 = none ∨ cellsGet cs kv.1 = some "") then
        some kv.2
      else cellsGet cs k := by
  unfold fillCell
  by_cases hc : kv.2 ≠ "" ∧ (cellsHas cs kv.1 = false ∨ cellsGet cs kv.1 = some "")
  · rw [if_pos hc, cellsGet_cellsSet]
    have hcond : cellsGet cs kv.1 = none ∨ cellsGet cs kv.1 = some "" := by
      rcases hc.2 with h | h
      · left
        rw [cellsHas_eq_isSome] at h
        exact Option.not_isSome_iff_eq_none.mp (by simp [h])
      · right; exact h
    by_cases hk : k = kv.1
    · rw [if_pos hk, if_pos ⟨hk, hc.1, hcond⟩]
    · rw [if_neg hk, if_neg (fun hcontra => hk hcontra.1)]
  · have hneg : ¬(k = kv.1 ∧ kv.2 ≠ "" ∧
        (cellsGet cs kv.1 = none ∨ cellsGet cs kv.1 = some "")) := by
      rintro ⟨hk, hne, hor⟩
      apply hc
      refine ⟨hne, ?_⟩
      rcases hor with h | h
      · left
        rw [cellsHas_eq_isSome, h]
        rfl
      · right; exact h
    rw [if_neg hc, if_neg hneg]

lemma foldFill_preserve (incs : List (String × String)) :
    ∀ (cs : List (String × String)) (fid : String) (v : String),
      cellsGet cs fid = some v → v ≠ "" →
      cellsGet (incs.foldl fillCell cs) fid = some v := by
  induction incs with
  | nil => intro cs fid v hv _; exact hv
  | cons kv rest ih =>
      intro cs fid v hv hne
      rw [List.foldl_cons]
      apply ih _ fid v _ hne
      rw [fillCell_get]
      by_cases hk : fid = kv.1
      · rw [if_neg]
        · exact hv
        · rintro ⟨_, _, hor⟩
          rw [← hk] at hor
          rcases hor with h | h
          · rw [hv] at h; exact Option.noConfusion h
          · rw [hv] at h
            exact hne (Option.some.inj h)
      · rw [if_neg (fun hcontra => hk hcontra.1)]
        exact hv

lemma foldFill_provenance (incs : List (String × String)) :
    ∀ (cs : List (String × String)) (fid : String) (v : String),
      cellsGet (incs.foldl fillCell cs) fid = some v →
      cellsGet cs fid = some v ∨
        (v ≠ "" ∧ (cellsGet cs fid = none ∨ cellsGet cs fid = some "")) := by
  induction incs with
  | nil => intro cs fid v hv; exact Or.inl hv
  | cons kv rest ih =>
      intro cs fid v hv
      rw [List.foldl_cons] at hv
      rcases ih _ fid v hv with h1 | ⟨hne, h1⟩
      · rw [fillCell_get] at h1
        by_cases hcond : fid = kv.1 ∧ kv.2 ≠ "" ∧
            (cellsGet cs kv.1 = none ∨ cellsGet cs kv.1 = some "")
        · rw [if_pos hcond] at h1
          right
          refine ⟨?_, ?_⟩
          · intro hveq
            exact hcond.2.1 ((Option.some.inj h1).trans hveq)
          · obtain ⟨hk, _, hor⟩ := hcond
            rw [hk]
            exact hor
        · rw [if_neg hcond] at h1
          exact Or.inl h1
      · rw [fillCell_get] at h1
        by_cases hcond : fid = kv.1 ∧ kv.2 ≠ "" ∧
            (cellsGet cs kv.1 = none ∨ cellsGet cs kv.1 = some "")
        · rcases h1 with h1 | h1
          · rw [if_pos hcond] at h1
            exact absurd h1 (fun h => Option.noConfusion h)
          · rw [if_pos hcond] at h1
            right
            refine ⟨hne, ?_⟩
            obtain ⟨hk, hkv, hor⟩ := hcond
            rw [hk]
            exact hor
        · rw [if_neg hcond] at h1
          exact Or.inr ⟨hne, h1⟩

lemma mergeEvolves_refl (rd : RowData) : mergeEvolves rd rd := by
  refine ⟨rfl, fun fid v hv _ => hv, fun fid v hv => Or.inl hv⟩

lemma mergeEvolves_trans {a b c : RowData} (h1 : mergeEvolves a b)
    (h2 : mergeEvolves b c) : mergeEvolves a c := by
  obtain ⟨hi1, hp1, hq1⟩ := h1
  obtain ⟨hi2, hp2, hq2⟩ := h2
  refine ⟨hi2.trans hi1, fun fid v hv hne => hp2 fid v (hp1 fid v hv hne) hne, ?_⟩
  intro fid v hv
  rcases hq2 fid v hv with h | ⟨hne, hor⟩
  · exact hq1 fid v h
  · right
    refine ⟨hne, ?_⟩
    rcases hor with h | h
    · rcases hget : cellsGet a.cells fid with _ | w
      · exact Or.inl rfl
      · by_cases hw : w = ""
        · exact Or.inr (by rw [hw])
        · have hb := hp1 fid w hget hw
          rw [hb] at h
          exact Option.noConfusion h
    · rcases hq1 fid "" h with hh | ⟨hne2, hor2⟩
      · exact Or.inr hh
      · exact absurd rfl hne2

lemma mergeEvolves_mergeInto (rd inc : RowData) : mergeEvolves rd (mergeInto rd inc) := by
  refine ⟨rfl, ?_, ?_⟩
  · intro fid v hv hne
    exact foldFill_preserve inc.cells rd.cells fid v hv hne
  · intro fid v hv
    exact foldFill_provenance inc.cells rd.cells fid v hv

lemma mergeRowsStep_get (tgt : List (String × RowData)) (e : String × RowData)
    (k : String) :
    cellsGet (mergeRowsStep tgt e) k =
      if k = e.1 then
        some (match cellsGet tgt k with
              | some rd => mergeInto rd e.2
              | none => e.2)
      else cellsGet tgt k := by
  unfold mergeRowsStep
  by_cases hb : tgt.any (fun x => x.1 = e.1)
  · rw [if_pos hb]
    have hmap :
        cellsGet (tgt.map (fun x => if x.1 = e.1 then (x.1, mergeInto x.2 e.2) else x)) k =
          if k = e.1 then (cellsGet tgt k).map (fun rd => mergeInto rd e.2)
          else cellsGet tgt k := by
      clear hb
      induction tgt with
      | nil => by_cases hk : k = e.1 <;> simp [cellsGet_nil, hk]
      | cons x rest ih =>
          rw [List.map_cons]
          by_cases hx : x.1 = e.1
          · rw [if_pos hx, cellsGet_cons, cellsGet_cons]
            by_cases hk : x.1 = k
            · have hkf : k = e.1 := by rw [← hk]; exact hx
              simp [hk, hkf]
            · simp only [if_neg hk]
              exact ih
          · rw [if_neg hx, cellsGet_cons, cellsGet_cons]
            by_cases hk : x.1 = k
            · have hkf : ¬k = e.1 := by rw [← hk]; exact hx
              simp [hk, hkf]
            · simp only [if_neg hk]
              exact ih
    rw [hmap]
    by_cases hk : k = e.1
    · obtain ⟨rd, hrd⟩ : ∃ rd, cellsGet tgt k = some rd := by
        have : cellsHas tgt e.1 = true := hb
        rw [cellsHas_eq_isSome] at this
        rw [hk]
        exact Option.isSome_iff_exists.mp this
      rw [if_pos hk, if_pos hk, hrd]
      rfl
    · rw [if_neg hk, if_neg hk]
  · rw [if_neg hb, cellsGet_append_single]
    have hnone : cellsGet tgt e.1 = none := by
      have : cellsHas tgt e.1 = false := by
        rw [← Bool.not_eq_true]
        exact hb
      rw [cellsHas_eq_isSome] at this
      exact Option.not_isSome_iff_eq_none.mp (by simp [this])
    by_cases hk : k = e.1
    · rw [if_pos hk, hk, hnone]
      simp
    · rw [if_neg hk]
      rcases hget : cellsGet tgt k with _ | w
      · have hek : ¬e.1 = k := fun h => hk h.symm
        simp [hek]
      · rfl

lemma mergeRows_existing (source : List (String × RowData)) :
    ∀ (tgt : List (String × RowData)) (rowId : String) (rd : RowData),
      cellsGet tgt rowId = some rd →
      ∃ rd', cellsGet (mergeRows tgt source) rowId = some rd' ∧ mergeEvolves rd rd' := by
  induction source with
  | nil => intro tgt rowId rd h; exact ⟨rd, h, mergeEvolves_refl rd⟩
  | cons e rest ih =>
      intro tgt rowId rd h
      rw [mergeRows, List.foldl_cons]
      by_cases hk : rowId = e.1
      · have hstep : cellsGet (mergeRowsStep tgt e) rowId = some (mergeInto rd e.2) := by
          rw [mergeRowsStep_get, if_pos hk, h]
        obtain ⟨rd', hrd', hev⟩ := ih (mergeRowsStep tgt e) rowId (mergeInto rd e.2) hstep
        exact ⟨rd', hrd', mergeEvolves_trans (mergeEvolves_mergeInto rd e.2) hev⟩
      · have hstep : cellsGet (mergeRowsStep tgt e) rowId = some rd := by
          rw [mergeRowsStep_get, if_neg hk]
          exact h
        exact ih (mergeRowsStep tgt e) rowId rd hstep

lemma mergeRows_new (source : List (String × RowData)) :
    ∀ (tgt : List (String × RowData)) (rowId : String) (rd : RowData),
      cellsGet tgt rowId = none →
      cellsGet source rowId = some rd →
      ∃ rd', cellsGet (mergeRows tgt source) rowId = some rd' ∧ mergeEvolves rd rd' := by
  induction source with
  | nil => intro tgt rowId rd _ hsrc; exact absurd hsrc (by rw [cellsGet_nil]; simp)
  | cons e rest ih =>
      intro tgt rowId rd htgt hsrc
      rw [cellsGet_cons] at hsrc
      rw [mergeRows, List.foldl_cons]
      by_cases he : e.1 = rowId
      · rw [if_pos he] at hsrc
        have hrd : rd = e.2 := by
          exact (Option.some.injEq _ _ ▸ hsrc).symm
        have hstep : cellsGet (mergeRowsStep tgt e) rowId = some e.2 := by
          rw [mergeRowsStep_get, if_pos he.symm, htgt]
        rw [hrd]
        exact mergeRows_existing rest (mergeRowsStep tgt e) rowId e.2 hstep
      · rw [if_neg he] at hsrc
        have hstep : cellsGet (mergeRowsStep tgt e) rowId = none := by
          rw [mergeRowsStep_get, if_neg (fun h => he h.symm)]
          exact htgt
        exact ih (mergeRowsStep tgt e) rowId rd hstep hsrc

/-- C2: merging satisfies first-non-empty-writer-wins. For every
accumulator and incoming pass: an already-present key keeps its original
index, none of its non-empty cell values is ever changed, and any other
cell of the result was filled with a non-empty incoming value into a slot
that was absent or the empty string; a new key is inserted wholesale from
its first-seen observation and then only evolves the same lawful way. In
particular merging accumulator rowA maps f1 to x with a pass offering
f1 = y, f2 = z yields f1 = x (unchanged), f2 = z (filled), index kept. -/
theorem mergeRows_first_writer_wins :
    (∀ (target source : List (String × RowData)) (rowId : String) (rd : RowData),
        cellsGet target rowId = some rd →
        ∃ rd', cellsGet (mergeRows target source) rowId = some rd' ∧
          mergeEvolves rd rd') ∧
    (∀ (target source : List (String × RowData)) (rowId : String) (rd : RowData),
        cellsGet target rowId = none →
        cellsGet source rowId = some rd →
        ∃ rd', cellsGet (mergeRows target source) rowId = some rd' ∧
          mergeEvolves rd rd') ∧
    mergeRows accEx passEx =
      [("rowA", { index := 0, cells := [("f1", "x"), ("f2", "z")] })] := by
  refine ⟨?_, ?_, rfl⟩
  · intro target source rowId rd h
    exact mergeRows_existing source target rowId rd h
  · intro target source rowId rd h1 h2
    exact mergeRows_new source target rowId rd h1 h2

/-- Witness for C2 at the concrete example accumulator and pass. -/
theorem mergeRows_first_writer_wins_witness :
    ∃ rd', cellsGet (mergeRows accEx passEx) "rowA" = some rd' ∧
      mergeEvolves { index := 0, cells := [("f1", "x")] } rd' :=
  mergeRows_first_writer_wins.1 accEx passEx "rowA"
    { index := 0, cells := [("f1", "x")] } rfl

/-! ## C3: table-candidate detection -/

lemma findTablesAux_sizeOf :
    ∀ (b : Nat) (v : JValue) (ys : List JValue),
      ys ∈ findTablesAux b v → sizeOf (jarr ys) ≤ sizeOf v := by
  intro b
  induction b with
  | zero => intro v ys h; simp [findTablesAux] at h
  | succ b ih =>
      intro v ys h
      cases v with
      | jarr xs =>
          rw [findTablesAux, List.mem_append] at h
          rcases h with h | h
          · cases hl : looksLikeTable xs
            · rw [hl] at h; simp at h
            · rw [hl] at h
              simp at h
              rw [h]
          · rw [List.mem_flatMap] at h
            obtain ⟨item, hitem, hys⟩ := h
            by_cases ho : item.isObjectLike
            · rw [if_pos ho] at hys
              have hle := ih item ys hys
              have hlt := List.sizeOf_lt_of_mem hitem
              have hsz : sizeOf (jarr xs) = 1 + sizeOf xs := by simp
              omega
            · rw [if_neg ho] at hys
              simp at hys
      | jobj kvs =>
          rw [findTablesAux, List.mem_flatMap] at h
          obtain ⟨kv, hkv, hys⟩ := h
          have hle := ih kv.2 ys hys
          have hlt := List.sizeOf_lt_of_mem hkv
          have hkvsz : sizeOf kv = 1 + sizeOf kv.1 + sizeOf kv.2 := by
            obtain ⟨k, w⟩ := kv
            simp
          have hsz : sizeOf (jobj kvs) = 1 + sizeOf kvs := by simp
          omega
      | jnull => simp [findTablesAux] at h
      | jbool bb => simp [findTablesAux] at h
      | jnum n => simp [findTablesAux] at h
      | jstr s => simp [findTablesAux] at h

lemma mem_findTablesAux_self_iff (b : Nat) (xs : List JValue) :
    xs ∈ findTablesAux (b + 1) (jarr xs) ↔ looksLikeTable xs = true := by
  rw [findTablesAux, List.mem_append]
  constructor
  · rintro (h | h)
    · cases hl : looksLikeTable xs
      · rw [hl] at h; simp at h
      · rfl
    · exfalso
      rw [List.mem_flatMap] at h
      obtain ⟨item, hitem, hys⟩ := h
      by_cases ho : item.isObjectLike
      · rw [if_pos ho] at hys
        have hle := findTablesAux_sizeOf b item xs hys
        have hlt := List.sizeOf_lt_of_mem hitem
        have hsz : sizeOf (jarr xs) = 1 + sizeOf xs := by simp
        omega
      · rw [if_neg ho] at hys
        simp at hys
  · intro h
    left
    rw [h]
    simp

lemma looksLikeTable_iff_spec (xs : List JValue) :
    looksLikeTable xs = true ↔ specTableCandidateAmended xs := by
  cases xs with
  | nil => simp [looksLikeTable, specTableCandidateAmended]
  | cons first rest =>
      rw [specTableCandidateAmended]
      constructor
      · intro h
        simp only [looksLikeTable, Bool.and_eq_true, decide_eq_true_eq,
          List.all_eq_true] at h
        obtain ⟨h1, h2, h3⟩ := h
        refine ⟨by simp, first, rfl, h1, h2, ?_⟩
        intro item hitem
        have h4 := h3 item hitem
        simp only [Bool.and_eq_true, decide_eq_true_eq] at h4
        exact h4
      · rintro ⟨-, f, hf, h1, h2, h3⟩
        have hfe : f = first := by
          rw [List.head?_cons] at hf
          exact (Option.some.inj hf).symm
        subst hfe
        simp only [looksLikeTable, Bool.and_eq_true, decide_eq_true_eq,
          List.all_eq_true]
        exact ⟨h1, h2, fun item hitem => h3 item hitem⟩

/-- C3 counterexample: the detector reports the array
`[ an object keyed "0", "1" ; the array [7, 8] ]` as a table candidate
(the sampled second element is an array, which passes the JS typeof
object test and shares the index keys), while the claim predicate — which
requires every sampled element to be an object — rejects it. -/
theorem findAllTableArrays_counterexample :
    weirdArr ∈ findAllTableArrays (jarr weirdArr) 0 ∧
      ¬specTableCandidate weirdArr := by
  constructor
  · rw [show findAllTableArrays (jarr weirdArr) 0 = [weirdArr] from rfl]
    simp
  · rintro ⟨-, f, hf, h1, h2, h3⟩
    have hmem : (jarr [jnum 7, jnum 8]) ∈ weirdArr.take 5 := by
      rw [show weirdArr.take 5 = weirdArr from rfl, weirdArr]
      simp
    have h4 := (h3 (jarr [jnum 7, jnum 8]) hmem).1
    rw [show (jarr [jnum 7, jnum 8]).isPlainObject = false from rfl] at h4
    exact Bool.noConfusion h4

/-- C3 (amended): an array handed to the detector is reported as a table
candidate exactly when its length is at least 1, its first element is a
non-array non-null object with at least 2 own keys, and each of the first
`min(5, length)` elements is of JS object type (a JSON object or an
array, whose keys are its indices) and non-null and shares at least 50
percent of the keys of the first element; an array of 5 objects sharing
only 1 of the 4 keys of the first is rejected, one sharing 2 of 4 keys is
accepted. -/
theorem findAllTableArrays_spec :
    (∀ xs : List JValue,
        xs ∈ findAllTableArrays (jarr xs) 0 ↔ specTableCandidateAmended xs) ∧
    findAllTableArrays (jarr arrShare1) 0 = [] ∧
    findAllTableArrays (jarr arrShare2) 0 = [arrShare2] := by
  refine ⟨?_, rfl, rfl⟩
  intro xs
  rw [show findAllTableArrays (jarr xs) 0 = findTablesAux (8 + 1) (jarr xs) from rfl,
    mem_findTablesAux_self_iff]
  exact looksLikeTable_iff_spec xs

/-! ## C4: header derivation and assembly -/

lemma jsKeys_nil_of_not_objectLike (v : JValue) (h : v.isObjectLike = false) :
    v.jsKeys = [] := by
  cases v <;> simp [JValue.jsKeys, JValue.isObjectLike] at h ⊢

lemma fold_addNewKeys_guard (items : List JValue) :
    ∀ acc : List String,
      items.foldl
        (fun acc item =>
          if item.isObjectLike then addNewKeys acc item.jsKeys else acc) acc =
      items.foldl (fun acc item => addNewKeys acc item.jsKeys) acc := by
  induction items with
  | nil => intro acc; rfl
  | cons item rest ih =>
      intro acc
      rw [List.foldl_cons, List.foldl_cons]
      by_cases ho : item.isObjectLike
      · rw [if_pos ho]
        exact ih _
      · rw [if_neg ho, jsKeys_nil_of_not_objectLike item (by simpa using ho)]
        rw [show addNewKeys acc [] = acc from rfl]
        exact ih _

/-- C4: the assembler derives headers as the ordered union of keys over
the first `min(10, length)` elements — the keys of the first element in
their own order, then keys newly seen in subsequent elements — with the
nine denylist keys removed; and the end-to-end payload with items
`id, name, __typename` parses to headers `id, name` and rows
`["1","A"], ["2","B"]` for every positive flattening fuel. -/
theorem extractHeaders_spec :
    (∀ arr : List JValue,
        extractHeadersFromObjects arr = specOrderedUnionHeaders arr) ∧
    (∀ fuel : Nat,
        parseApiResponsesToTable (fuel + 1) [apiPayloadEx] =
          some { headers := ["id", "name"], rows := [["1", "A"], ["2", "B"]] }) := by
  constructor
  · intro arr
    cases arr with
    | nil => rfl
    | cons first rest =>
        rw [extractHeadersFromObjects, specOrderedUnionHeaders]
        congr 1
        rw [show (first :: rest).take 10 = first :: rest.take 9 from rfl,
          List.foldl_cons]
        exact fold_addNewKeys_guard (rest.take 9) (addNewKeys [] first.jsKeys)
  · intro fuel
    rfl

/-! ## C5: object flattening priority -/

/-- C5 counterexample: for the object with single key `url` bound to
null, the first present priority key is `url`, its flattened value is the
empty string, yet the flattener returns the JS String conversion
`"null"`. -/
theorem flattenValue_object_counterexample :
    (jobj [("url", jnull)]).jsGet "url" = some jnull ∧
    flattenValue 1 jnull = "" ∧
    flattenValue 2 (jobj [("url", jnull)]) = "null" ∧
    ("null" : String) ≠ "" :=
  ⟨rfl, rfl, rfl, by decide⟩

/-- C5 (amended): on a non-null, non-array object the ten keys `value`,
`text`, `name`, `label`, `title`, `display`, `url`, `href`, `email`,
`phone` are tried in that fixed order and the first present key decides
the result — for the first six the value is recursively flattened, for
the last four it is rendered with the JS String conversion (which agrees
with flattening on strings, numbers and booleans but not on null, arrays
or objects); if none is present and the object has at most 4 own keys the
result is the comma-joined `key: flattenedValue` pairs, otherwise the
compact JSON serialization. -/
theorem flattenValue_object_priority (fuel : Nat) (kvs : List (String × JValue)) :
    (∀ v, (jobj kvs).jsGet "value" = some v →
        flattenValue (fuel + 1) (jobj kvs) = flattenValue fuel v) ∧
    (∀ v, (jobj kvs).jsGet "value" = none →
        (jobj kvs).jsGet "text" = some v →
        flattenValue (fuel + 1) (jobj kvs) = flattenValue fuel v) ∧
    (∀ v, (jobj kvs).jsGet "value" = none →
        (jobj kvs).jsGet "text" = none →
        (jobj kvs).jsGet "name" = some v →
        flattenValue (fuel + 1) (jobj kvs) = flattenValue fuel v) ∧
    (∀ v, (jobj kvs).jsGet "value" = none →
        (jobj kvs).jsGet "text" = none →
        (jobj kvs).jsGet "name" = none →
        (jobj kvs).jsGet "label" = some v →
        flattenValue (fuel + 1) (jobj kvs) = flattenValue fuel v) ∧
    (∀ v, (jobj kvs).jsGet "value" = none →
        (jobj kvs).jsGet "text" = none →
        (jobj kvs).jsGet "name" = none →
        (jobj kvs).jsGet "label" = none →
        (jobj kvs).jsGet "title" = some v →
        flattenValue (fuel + 1) (jobj kvs) = flattenValue fuel v) ∧
    (∀ v, (jobj kvs).jsGet "value" = none →
        (jobj kvs).jsGet "text" = none →
        (jobj kvs).jsGet "name" = none →
        (jobj kvs).jsGet "label" = none →
        (jobj kvs).jsGet "title" = none →
        (jobj kvs).jsGet "display" = some v →
        flattenValue (fuel + 1) (jobj kvs) = flattenValue fuel v) ∧
    (∀ v, (jobj kvs).jsGet "value" = none →
        (jobj kvs).jsGet "text" = none →
        (jobj kvs).jsGet "name" = none →
        (jobj kvs).jsGet "label" = none →
        (jobj kvs).jsGet "title" = none →
        (jobj kvs).jsGet "display" = none →
        (jobj kvs).jsGet "url" = some v →
        flattenValue (fuel + 1) (jobj kvs) = jsToString fuel v) ∧
    (∀ v, (jobj kvs).jsGet "value" = none →
        (jobj kvs).jsGet "text" = none →
        (jobj kvs).jsGet "name" = none →
        (jobj kvs).jsGet "label" = none →
        (jobj kvs).jsGet "title" = none →
        (jobj kvs).jsGet "display" = none →
        (jobj kvs).jsGet "url" = none →
        (jobj kvs).jsGet "href" = some v →
        flattenValue (fuel + 1) (jobj kvs) = jsToString fuel v) ∧
    (∀ v, (jobj kvs).jsGet "value" = none →
        (jobj kvs).jsGet "text" = none →
        (jobj kvs).jsGet "name" = none →
        (jobj kvs).jsGet "label" = none →
        (jobj kvs).jsGet "title" = none →
        (jobj kvs).jsGet "display" = none →
        (jobj kvs).jsGet "url" = none →
        (jobj kvs).jsGet "href" = none →
        (jobj kvs).jsGet "email" = some v →
        flattenValue (fuel + 1) (jobj kvs) = jsToString fuel v) ∧
    (∀ v, (jobj kvs).jsGet "value" = none →
        (jobj kvs).jsGet "text" = none →
        (jobj kvs).jsGet "name" = none →
        (jobj kvs).jsGet "label" = none →
        (jobj kvs).jsGet "title" = none →
        (jobj kvs).jsGet "display" = none →
        (jobj kvs).jsGet "url" = none →
        (jobj kvs).jsGet "href" = none →
        (jobj kvs).jsGet "email" = none →
        (jobj kvs).jsGet "phone" = some v →
        flattenValue (fuel + 1) (jobj kvs) = jsToString fuel v) ∧
    ((jobj kvs).jsGet "value" = none →
        (jobj kvs).jsGet "text" = none →
        (jobj kvs).jsGet "name" = none →
        (jobj kvs).jsGet "label" = none →
        (jobj kvs).jsGet "title" = none →
        (jobj kvs).jsGet "display" = none →
        (jobj kvs).jsGet "url" = none →
        (jobj kvs).jsGet "href" = none →
        (jobj kvs).jsGet "email" = none →
        (jobj kvs).jsGet "phone" = none →
        flattenValue (fuel + 1) (jobj kvs) =
          (if (jobj kvs).jsKeys.length ≤ 4 then
            String.intercalate ", "
              ((jobj kvs).jsKeys.map (fun k => k ++ ": " ++
                flattenProp fuel ((jobj kvs).jsGet k)))
          else jsonStringify (fuel + 1) (jobj kvs))) := by
  refine ⟨?_, ?_, ?_, ?_, ?_, ?_, ?_, ?_, ?_, ?_, ?_⟩
  · intro v h1
    rw [flattenValue, h1]
  · intro v h1 h2
    rw [flattenValue, h1, h2]
  · intro v h1 h2 h3
    rw [flattenValue, h1, h2, h3]
  · intro v h1 h2 h3 h4
    rw [flattenValue, h1, h2, h3, h4]
  · intro v h1 h2 h3 h4 h5
    rw [flattenValue, h1, h2, h3, h4, h5]
  · intro v h1 h2 h3 h4 h5 h6
    rw [flattenValue, h1, h2, h3, h4, h5, h6]
  · intro v h1 h2 h3 h4 h5 h6 h7
    rw [flattenValue, h1, h2, h3, h4, h5, h6, h7]
  · intro v h1 h2 h3 h4 h5 h6 h7 h8
    rw [flattenValue, h1, h2, h3, h4, h5, h6, h7, h8]
  · intro v h1 h2 h3 h4 h5 h6 h7 h8 h9
    rw [flattenValue, h1, h2, h3, h4, h5, h6, h7, h8, h9]
  · intro v h1 h2 h3 h4 h5 h6 h7 h8 h9 h10
    rw [flattenValue, h1, h2, h3, h4, h5, h6, h7, h8, h9, h10]
  · intro h1 h2 h3 h4 h5 h6 h7 h8 h9 h10
    rw [flattenValue, h1, h2, h3, h4, h5, h6, h7, h8, h9, h10]
    dsimp only
    have hfun : ∀ k, (match (jobj kvs).jsGet k with
        | some v => flattenValue fuel v
        | none => "") = flattenProp fuel ((jobj kvs).jsGet k) := by
      intro k
      cases hget : (jobj kvs).jsGet k
      · rfl
      · rfl
    simp only [hfun]

/-- Witness for C5 at an object whose `value` key holds the string 7. -/
theorem flattenValue_object_priority_witness :
    flattenValue 1 (jobj [("value", jstr "7")]) = flattenValue 0 (jstr "7") :=
  (flattenValue_object_priority 0 [("value", jstr "7")]).1 (jstr "7") rfl

/-! ## C1: replacement policy for the stored table -/

/-- C1 counterexample: after a successful three-row DOM scrape and an
unflagged two-row API capture, an explicit use-API-data request succeeds
and replaces the stored three-row table with the two-row parse — a
capture producing fewer rows does replace the stored table. -/
theorem parsedTable_counterexample :
    stAfterCapture.parsedTable = some domTable3 ∧
    domTable3.rows.length = 3 ∧
    (handleUseApiData 5 stAfterCapture).2 = true ∧
    ((handleUseApiData 5 stAfterCapture).1.parsedTable.map
        (fun t => t.rows.length)) = some 2 :=
  ⟨rfl, rfl, rfl, rfl⟩

/-- C1 (amended): only the automatic API-capture path is monotonic —
`handleApiCapture` overwrites the stored table only with an
equal-or-larger non-empty parse and leaves it unchanged otherwise (an
unflagged payload never touches it); an explicit use-API-data request
replaces the stored table with any successful non-empty parse regardless
of the previous row count, and leaves the state unchanged when parsing
fails; a DOM scrape replaces the table unconditionally on success and
leaves the state unchanged on failure. -/
theorem parsedTable_replacement :
    (∀ (fuel : Nat) (st : CapturedData) (p : Payload) (old t : Table),
        st.parsedTable = some old →
        (handleApiCapture fuel st p).parsedTable = some t →
        t = old ∨ old.rows.length ≤ t.rows.length) ∧
    (∀ (fuel : Nat) (st : CapturedData) (p : Payload),
        p.hasTableData = false →
        (handleApiCapture fuel st p).parsedTable = st.parsedTable) ∧
    (∀ (fuel : Nat) (st : CapturedData) (t : Table),
        st.apiResponses ≠ [] →
        parseApiResponsesToTable fuel st.apiResponses = some t →
        0 < t.rows.length →
        (handleUseApiData fuel st).1.parsedTable = some t) ∧
    (∀ (fuel : Nat) (st : CapturedData),
        parseApiResponsesToTable fuel st.apiResponses = none →
        (handleUseApiData fuel st).1 = st) ∧
    (∀ st : CapturedData, applyScrapeResult st none = st) ∧
    (∀ (st : CapturedData) (t : Table) (m : String),
        (applyScrapeResult st (some (t, m))).parsedTable = some t) := by
  refine ⟨?_, ?_, ?_, ?_, fun st => rfl, fun st t m => rfl⟩
  · intro fuel st p old t h1 h2
    simp only [handleApiCapture] at h2
    by_cases hp : p.hasTableData
    · rw [if_pos hp] at h2
      cases hparse : parseApiResponsesToTable fuel (appendCapture st.apiResponses p) with
      | none =>
          rw [hparse] at h2
          dsimp only at h2
          left
          rw [h1] at h2
          exact (Option.some.inj h2).symm
      | some parsed =>
          rw [hparse] at h2
          dsimp only at h2
          by_cases hrows : parsed.rows.length > 0
          · rw [if_pos hrows] at h2
            rw [h1] at h2
            dsimp only at h2
            by_cases hle : old.rows.length ≤ parsed.rows.length
            · rw [if_pos hle] at h2
              dsimp only at h2
              right
              rw [← Option.some.inj h2]
              exact hle
            · rw [if_neg hle] at h2
              dsimp only at h2
              left
              exact (Option.some.inj h2).symm
          · rw [if_neg hrows] at h2
            dsimp only at h2
            left
            rw [h1] at h2
            exact (Option.some.inj h2).symm
    · rw [if_neg hp] at h2
      dsimp only at h2
      left
      rw [h1] at h2
      exact (Option.some.inj h2).symm
  · intro fuel st p hp
    simp only [handleApiCapture]
    rw [if_neg (by simp [hp])]
  · intro fuel st t hne hparse hpos
    simp only [handleUseApiData]
    rw [if_neg (by simpa using hne), hparse]
    dsimp only
    rw [if_pos (show t.rows.length > 0 from hpos)]
  · intro fuel st hparse
    simp only [handleUseApiData]
    by_cases hz : st.apiResponses.length = 0
    · rw [if_pos hz]
    · rw [if_neg hz, hparse]

/-- Witness for C1: the explicit use-API-data request on the state of the
counterexample trace installs the two-row parse. -/
theorem parsedTable_replacement_witness :
    (handleUseApiData 5 stAfterCapture).1.parsedTable =
      some { headers := ["id", "name"], rows := [["1", "A"], ["2", "B"]] } :=
  parsedTable_replacement.2.2.1 5 stAfterCapture
    { headers := ["id", "name"], rows := [["1", "A"], ["2", "B"]] }
    (by rw [show stAfterCapture.apiResponses = [apiPayloadNoFlag] from rfl]
        exact List.cons_ne_nil _ _)
    rfl
    (by decide)

/-! ## C10: totality of the flattener -/

lemma one_le_sizeOf (v : JValue) : 1 ≤ sizeOf v := by
  cases v <;> simp

lemma jsGet_sizeOf_lt (kvs : List (String × JValue)) (k : String) (v : JValue)
    (h : (jobj kvs).jsGet k = some v) : sizeOf v < sizeOf (jobj kvs) := by
  rw [JValue.jsGet] at h
  obtain ⟨kv, hfind, hsnd⟩ := Option.map_eq_some'.mp h
  have hmem := List.mem_of_find?_eq_some hfind
  have hlt := List.sizeOf_lt_of_mem hmem
  have hsz : sizeOf (jobj kvs) = 1 + sizeOf kvs := by simp
  obtain ⟨a, b⟩ := kv
  dsimp only at hsnd
  have hab : sizeOf ((a, b) : String × JValue) = 1 + sizeOf a + sizeOf b := by simp
  subst hsnd
  omega

lemma jsToString_fuel_irrelevant :
    ∀ (n : Nat) (v : JValue) (m : Nat), sizeOf v ≤ n → sizeOf v ≤ m →
      jsToString n v = jsToString m v := by
  intro n
  induction n using Nat.strong_induction_on with
  | _ n ih =>
      intro v m hn hm
      have h1 := one_le_sizeOf v
      obtain ⟨n', rfl⟩ : ∃ n', n = n' + 1 := ⟨n - 1, by omega⟩
      obtain ⟨m', rfl⟩ : ∃ m', m = m' + 1 := ⟨m - 1, by omega⟩
      cases v with
      | jnull => rfl
      | jbool b => rfl
      | jnum k => rfl
      | jstr s => rfl
      | jobj kvs => rfl
      | jarr xs =>
          rw [jsToString, jsToString]
          congr 1
          apply List.map_congr_left
          intro x hx
          have hs : sizeOf (jarr xs) = 1 + sizeOf xs := by simp
          have hxlt : sizeOf x < sizeOf (jarr xs) := by
            have := List.sizeOf_lt_of_mem hx
            omega
          have hb1 : sizeOf x ≤ n' := by omega
          have hb2 : sizeOf x ≤ m' := by omega
          cases x with
          | jnull => rfl
          | jbool b => exact ih n' (by omega) _ m' hb1 hb2
          | jnum k => exact ih n' (by omega) _ m' hb1 hb2
          | jstr s => exact ih n' (by omega) _ m' hb1 hb2
          | jarr ys => exact ih n' (by omega) _ m' hb1 hb2
          | jobj kvs => exact ih n' (by omega) _ m' hb1 hb2

lemma jsonStringify_fuel_irrelevant :
    ∀ (n : Nat) (v : JValue) (m : Nat), sizeOf v ≤ n → sizeOf v ≤ m →
      jsonStringify n v = jsonStringify m v := by
  intro n
  induction n using Nat.strong_induction_on with
  | _ n ih =>
      intro v m hn hm
      have h1 := one_le_sizeOf v
      obtain ⟨n', rfl⟩ : ∃ n', n = n' + 1 := ⟨n - 1, by omega⟩
      obtain ⟨m', rfl⟩ : ∃ m', m = m' + 1 := ⟨m - 1, by omega⟩
      cases v with
      | jnull => rfl
      | jbool b => rfl
      | jnum k => rfl
      | jstr s => rfl
      | jarr xs =>
          rw [jsonStringify, jsonStringify]
          have hmap : List.map (jsonStringify n') xs = List.map (jsonStringify m') xs := by
            apply List.map_congr_left
            intro x hx
            have hs : sizeOf (jarr xs) = 1 + sizeOf xs := by simp
            have hxlt : sizeOf x < sizeOf (jarr xs) := by
              have := List.sizeOf_lt_of_mem hx
              omega
            exact ih n' (by omega) _ m' (by omega) (by omega)
          rw [hmap]
      | jobj kvs =>
          rw [jsonStringify, jsonStringify]
          have hmap :
              List.map (fun kv => jsonQuote kv.1 ++ ":" ++ jsonStringify n' kv.2) kvs =
                List.map (fun kv => jsonQuote kv.1 ++ ":" ++ jsonStringify m' kv.2) kvs := by
            apply List.map_congr_left
            intro kv hkv
            have hs : sizeOf (jobj kvs) = 1 + sizeOf kvs := by simp
            have hkvlt : sizeOf kv < sizeOf kvs := List.sizeOf_lt_of_mem hkv
            have hkvsz : sizeOf kv = 1 + sizeOf kv.1 + sizeOf kv.2 := by
              obtain ⟨a, b⟩ := kv
              simp
            congr 1
            exact ih n' (by omega) _ m' (by omega) (by omega)
          rw [hmap]

/-- C10: the flattener is total on finite JSON values — any two fuels at
least the structural size of the value give the same result (so the
recursion, which descends only into structurally smaller subvalues, needs
no depth cap and always produces a string), and every JSON value has
positive structural size, so a sufficient fuel always exists. -/
theorem flattenValue_fuel_irrelevant :
    (∀ (n : Nat) (v : JValue) (m : Nat), sizeOf v ≤ n → sizeOf v ≤ m →
        flattenValue n v = flattenValue m v) ∧
    (∀ v : JValue, 1 ≤ sizeOf v) := by
  refine ⟨?_, one_le_sizeOf⟩
  intro n
  induction n using Nat.strong_induction_on with
  | _ n ih =>
      intro v m hn hm
      have h1 := one_le_sizeOf v
      obtain ⟨n', rfl⟩ : ∃ n', n = n' + 1 := ⟨n - 1, by omega⟩
      obtain ⟨m', rfl⟩ : ∃ m', m = m' + 1 := ⟨m - 1, by omega⟩
      cases v with
      | jnull => rfl
      | jbool b => rfl
      | jnum k => rfl
      | jstr s => rfl
      | jarr xs =>
          have hs : sizeOf (jarr xs) = 1 + sizeOf xs := by simp
          rw [flattenValue, flattenValue]
          by_cases he : xs.isEmpty
          · rw [if_pos he, if_pos he]
          · rw [if_neg he, if_neg he]
            by_cases hall : xs.all (fun v => !v.isObjectLike)
            · rw [if_pos hall, if_pos hall]
              congr 1
              apply List.map_congr_left
              intro x hx
              have hxlt : sizeOf x < sizeOf (jarr xs) := by
                have := List.sizeOf_lt_of_mem hx
                omega
              cases x with
              | jnull => rfl
              | jbool b =>
                  exact jsToString_fuel_irrelevant n' _ m' (by omega) (by omega)
              | jnum k =>
                  exact jsToString_fuel_irrelevant n' _ m' (by omega) (by omega)
              | jstr s =>
                  exact jsToString_fuel_irrelevant n' _ m' (by omega) (by omega)
              | jarr ys =>
                  exact jsToString_fuel_irrelevant n' _ m' (by omega) (by omega)
              | jobj kvs =>
                  exact jsToString_fuel_irrelevant n' _ m' (by omega) (by omega)
            · rw [if_neg hall, if_neg hall]
              congr 1
              apply List.map_congr_left
              intro x hx
              have hxlt : sizeOf x < sizeOf (jarr xs) := by
                have := List.sizeOf_lt_of_mem hx
                omega
              exact ih n' (by omega) _ m' (by omega) (by omega)
      | jobj kvs =>
          have hs : sizeOf (jobj kvs) = 1 + sizeOf kvs := by simp
          rw [flattenValue, flattenValue]
          rcases hg1 : (jobj kvs).jsGet "value" with _ | v1
          case some =>
              have := jsGet_sizeOf_lt kvs _ _ hg1
              exact ih n' (by omega) _ m' (by omega) (by omega)
          dsimp only
          rcases hg2 : (jobj kvs).jsGet "text" with _ | v2
          case some =>
              have := jsGet_sizeOf_lt kvs _ _ hg2
              exact ih n' (by omega) _ m' (by omega) (by omega)
          dsimp only
          rcases hg3 : (jobj kvs).jsGet "name" with _ | v3
          case some =>
              have := jsGet_sizeOf_lt kvs _ _ hg3
              exact ih n' (by omega) _ m' (by omega) (by omega)
          dsimp only
          rcases hg4 : (jobj kvs).jsGet "label" with _ | v4
          case some =>
              have := jsGet_sizeOf_lt kvs _ _ hg4
              exact ih n' (by omega) _ m' (by omega) (by omega)
          dsimp only
          rcases hg5 : (jobj kvs).jsGet "title" with _ | v5
          case some =>
              have := jsGet_sizeOf_lt kvs _ _ hg5
              exact ih n' (by omega) _ m' (by omega) (by omega)
          dsimp only
          rcases hg6 : (jobj kvs).jsGet "display" with _ | v6
          case some =>
              have := jsGet_sizeOf_lt kvs _ _ hg6
              exact ih n' (by omega) _ m' (by omega) (by omega)
          dsimp only
          rcases hg7 : (jobj kvs).jsGet "url" with _ | v7
          case some =>
              have := jsGet_sizeOf_lt kvs _ _ hg7
              exact jsToString_fuel_irrelevant n' _ m' (by omega) (by omega)
          dsimp only
          rcases hg8 : (jobj kvs).jsGet "href" with _ | v8
          case some =>
              have := jsGet_sizeOf_lt kvs _ _ hg8
              exact jsToString_fuel_irrelevant n' _ m' (by omega) (by omega)
          dsimp only
          rcases hg9 : (jobj kvs).jsGet "email" with _ | v9
          case some =>
              have := jsGet_sizeOf_lt kvs _ _ hg9
              exact jsToString_fuel_irrelevant n' _ m' (by omega) (by omega)
          dsimp only
          rcases hg10 : (jobj kvs).jsGet "phone" with _ | v10
          case some =>
              have := jsGet_sizeOf_lt kvs _ _ hg10
              exact jsToString_fuel_irrelevant n' _ m' (by omega) (by omega)
          dsimp only
          by_cases hlen : (jobj kvs).jsKeys.length ≤ 4
          · rw [if_pos hlen, if_pos hlen]
            congr 1
            apply List.map_congr_left
            intro k _
            congr 1
            rcases hget : (jobj kvs).jsGet k with _ | w
            · rfl
            · have := jsGet_sizeOf_lt kvs _ _ hget
              exact ih n' (by omega) _ m' (by omega) (by omega)
          · rw [if_neg hlen, if_neg hlen]
            exact jsonStringify_fuel_irrelevant (n' + 1) _ (m' + 1) (by omega) (by omega)

/-- Witness for C10 at a nested value and two fuels above its size. -/
theorem flattenValue_fuel_irrelevant_witness :
    flattenValue 15 (jarr [jnull, jarr [jnum 0]]) =
      flattenValue 25 (jarr [jnull, jarr [jnum 0]]) :=
  flattenValue_fuel_irrelevant.1 15 (jarr [jnull, jarr [jnum 0]]) 25
    (by decide) (by decide)

/-! ## C7: CSV writer/reader round trip -/

lemma intercalate_singleton {α : Type} (sep f : List α) :
    List.intercalate sep [f] = f := by
  simp [List.intercalate]

lemma intercalate_cons_cons {α : Type} (sep f g : List α) (rest : List (List α)) :
    List.intercalate sep (f :: g :: rest) =
      f ++ sep ++ List.intercalate sep (g :: rest) := by
  simp [List.intercalate, List.intersperse]

lemma splitCRLF_no_cr : ∀ l : List Char, '\r' ∉ l → splitCRLF l = [l] := by
  intro l
  induction l with
  | nil => intro _; rfl
  | cons c t ih =>
      intro h
      have hc : ¬c = '\r' := fun hceq => h (by rw [← hceq]; exact List.mem_cons_self c t)
      have ht : '\r' ∉ t := fun hmem => h (List.mem_cons_of_mem c hmem)
      cases t with
      | nil => rfl
      | cons d t' =>
          rw [splitCRLF, if_neg (fun hand => hc hand.1), ih ht]

lemma splitCRLF_append : ∀ l rest : List Char, '\r' ∉ l →
    splitCRLF (l ++ '\r' :: '\n' :: rest) = l :: splitCRLF rest := by
  intro l
  induction l with
  | nil =>
      intro rest _
      rw [List.nil_append, splitCRLF, if_pos ⟨rfl, rfl⟩]
  | cons c t ih =>
      intro rest h
      have hc : ¬c = '\r' := fun hceq => h (by rw [← hceq]; exact List.mem_cons_self c t)
      have ht : '\r' ∉ t := fun hmem => h (List.mem_cons_of_mem c hmem)
      cases t with
      | nil =>
          rw [List.cons_append, List.nil_append, splitCRLF,
            if_neg (fun hand => hc hand.1),
            show splitCRLF ('\r' :: '\n' :: rest) = [] :: splitCRLF rest from by
              rw [splitCRLF, if_pos ⟨rfl, rfl⟩]]
      | cons d t' =>
          have ih2 := ih rest ht
          rw [List.cons_append] at ih2 ⊢
          rw [List.cons_append, splitCRLF, if_neg (fun hand => hc hand.1), ih2]

lemma splitCRLF_intercalate : ∀ (ls : List (List Char)) (l : List Char),
    (∀ x ∈ l :: ls, '\r' ∉ x) →
    splitCRLF (List.intercalate ['\r', '\n'] (l :: ls)) = l :: ls := by
  intro ls
  induction ls with
  | nil =>
      intro l h
      rw [intercalate_singleton]
      exact splitCRLF_no_cr l (h l (by simp))
  | cons g rest ih =>
      intro l h
      rw [intercalate_cons_cons, List.append_assoc,
        show ['\r', '\n'] ++ List.intercalate ['\r', '\n'] (g :: rest) =
          '\r' :: '\n' :: List.intercalate ['\r', '\n'] (g :: rest) from rfl,
        splitCRLF_append l _ (h l (by simp)),
        ih g (fun x hx => h x (List.mem_cons_of_mem l hx))]

lemma splitOnChar_no_sep : ∀ (sep : Char) (l : List Char), sep ∉ l →
    splitOnChar sep l = [l] := by
  intro sep l
  induction l with
  | nil => intro _; rfl
  | cons c t ih =>
      intro h
      have hc : ¬c = sep := fun hceq => h (by rw [← hceq]; exact List.mem_cons_self c t)
      have ht : sep ∉ t := fun hmem => h (List.mem_cons_of_mem c hmem)
      rw [splitOnChar, if_neg hc, ih ht]

lemma splitOnChar_append : ∀ (sep : Char) (l rest : List Char), sep ∉ l →
    splitOnChar sep (l ++ sep :: rest) = l :: splitOnChar sep rest := by
  intro sep l
  induction l with
  | nil =>
      intro rest _
      rw [List.nil_append, splitOnChar, if_pos rfl]
  | cons c t ih =>
      intro rest h
      have hc : ¬c = sep := fun hceq => h (by rw [← hceq]; exact List.mem_cons_self c t)
      have ht : sep ∉ t := fun hmem => h (List.mem_cons_of_mem c hmem)
      rw [List.cons_append, splitOnChar, if_neg hc, ih rest ht]

lemma splitOnChar_intercalate (sep : Char) :
    ∀ (fs : List (List Char)), fs ≠ [] → (∀ f ∈ fs, sep ∉ f) →
      splitOnChar sep (List.intercalate [sep] fs) = fs := by
  intro fs
  induction fs with
  | nil => intro h _; exact absurd rfl h
  | cons f rest ih =>
      intro _ h
      cases rest with
      | nil =>
          rw [intercalate_singleton]
          exact splitOnChar_no_sep sep f (h f (by simp))
      | cons g rest' =>
          rw [intercalate_cons_cons, List.append_assoc,
            show [sep] ++ List.intercalate [sep] (g :: rest') =
              sep :: List.intercalate [sep] (g :: rest') from rfl,
            splitOnChar_append sep f _ (h f (by simp)),
            ih (by simp) (fun x hx => h x (List.mem_cons_of_mem f hx))]

lemma mem_escapeCSVField {c : Char} {s : List Char} (h : c ∈ escapeCSVField s) :
    c = '"' ∨ c ∈ s := by
  unfold escapeCSVField at h
  rw [List.mem_cons, List.mem_append] at h
  rcases h with h | h | h
  · exact Or.inl h
  · rw [List.mem_flatMap] at h
    obtain ⟨a, ha, hc⟩ := h
    by_cases haq : a = '"'
    · rw [if_pos haq] at hc
      simp at hc
      exact Or.inl hc
    · rw [if_neg haq] at hc
      simp at hc
      exact Or.inr (hc ▸ ha)
  · simp at h
    exact Or.inl h

lemma not_mem_escapeCSVField {c : Char} {s : List Char} (hq : c ≠ '"') (hs : c ∉ s) :
    c ∉ escapeCSVField s :=
  fun h => (mem_escapeCSVField h).elim hq hs

lemma not_mem_intercalate_single {c sep : Char} :
    ∀ fs : List (List Char), c ≠ sep → (∀ f ∈ fs, c ∉ f) →
      c ∉ List.intercalate [sep] fs := by
  intro fs
  induction fs with
  | nil => intro _ _; simp [List.intercalate]
  | cons f rest ih =>
      intro h1 h2
      cases rest with
      | nil =>
          rw [intercalate_singleton]
          exact h2 f (by simp)
      | cons g rest' =>
          rw [intercalate_cons_cons]
          intro hmem
          rw [List.append_assoc, List.mem_append] at hmem
          rcases hmem with hf | hmem
          · exact h2 f (by simp) hf
          · rcases List.mem_append.mp hmem with hs | ht
            · simp at hs
              exact h1 hs
            · exact ih h1 (fun x hx => h2 x (List.mem_cons_of_mem f hx)) ht

lemma undouble_cons_of_ne (c : Char) (t : List Char) (h : ¬c = '"') :
    undoubleQuotes (c :: t) = c :: undoubleQuotes t := by
  cases t with
  | nil => rfl
  | cons d t' => rw [undoubleQuotes, if_neg (fun hand => h hand.1)]

lemma undouble_escape_body : ∀ s : List Char,
    undoubleQuotes (s.flatMap (fun c => if c = '"' then ['"', '"'] else [c])) = s := by
  intro s
  induction s with
  | nil => rfl
  | cons c t ih =>
      rw [List.flatMap_cons]
      by_cases hc : c = '"'
      · rw [if_pos hc]
        rw [show (['"', '"'] : List Char) ++
            t.flatMap (fun c => if c = '"' then ['"', '"'] else [c]) =
            '"' :: '"' :: t.flatMap (fun c => if c = '"' then ['"', '"'] else [c]) from
          rfl]
        rw [undoubleQuotes, if_pos ⟨rfl, rfl⟩, ih, hc]
      · rw [if_neg hc, List.singleton_append, undouble_cons_of_ne c _ hc, ih]

lemma unquote_escape (f : List Char) : unquoteCSVField (escapeCSVField f) = f := by
  rw [escapeCSVField, unquoteCSVField]
  rw [if_pos ⟨by simp, by rw [List.getLast?_concat]⟩, List.dropLast_concat]
  exact undouble_escape_body f

lemma range_map_get_pad {α β : Type} (f : α → β) (d : α) :
    ∀ (row : List α) (n : Nat), row.length = n →
      (List.range n).map (fun i => f ((row.get? i).getD d)) = row.map f := by
  intro row
  induction row with
  | nil =>
      intro n h
      rw [← h]
      rfl
  | cons x t ih =>
      intro n h
      rw [← h, List.length_cons, List.range_succ_eq_map, List.map_cons, List.map_map]
      congr 1
      rw [← ih t.length rfl]
      apply List.map_congr_left
      intro i _
      simp [Function.comp, List.get?_cons_succ]

lemma parseCSV_bom (X : List Char) :
    parseCSV (bomChar :: X) =
      (splitCRLF X).map (fun line => (splitOnChar ',' line).map unquoteCSVField) := by
  simp only [parseCSV]
  simp

/-- C7 counterexample: with a comma inside a header field, the writer
output re-read by the stripping/splitting/unquoting reader does not
reconstruct the table — the quoted field is torn apart at its comma. -/
theorem generateCSV_counterexample :
    parseCSV (generateCSV none ["a,b"] []) = [[['"', 'a'], ['b', '"']]] ∧
    parseCSV (generateCSV none ["a,b"] []) ≠
      ((["a,b"] :: ([] : List (List String))).map (fun r => r.map String.data)) := by
  refine ⟨rfl, ?_⟩
  intro h
  rw [show parseCSV (generateCSV none ["a,b"] []) = [[['"', 'a'], ['b', '"']]] from rfl]
    at h
  exact absurd h (by decide)

/-- C7 (amended): CSV serialization without a metadata block is inverted
by the reader of the specification — strip the BOM, split on CRLF, split
each line on commas, unquote each field — for every Table whose headers
are non-empty, whose rows are aligned to the headers, and whose fields
contain no comma, CR or LF (quotes are fine: the doubling is undone). -/
theorem generateCSV_roundTrip (headers : List String) (rows : List (List String))
    (hne : headers ≠ [])
    (halign : ∀ row ∈ rows, row.length = headers.length)
    (hheaders : ∀ h ∈ headers, csvSafe h)
    (hcells : ∀ row ∈ rows, ∀ c ∈ row, csvSafe c) :
    parseCSV (generateCSV none headers rows) =
      (headers :: rows).map (fun r => r.map String.data) := by
  have hg : generateCSV none headers rows =
      bomChar :: List.intercalate ['\r', '\n']
        (List.intercalate [','] (headers.map (fun h => escapeCSVField h.data)) ::
          rows.map (csvRowLine headers)) := rfl
  have hrowline : ∀ row ∈ rows, csvRowLine headers row =
      List.intercalate [','] (row.map (fun cell => escapeCSVField cell.data)) := by
    intro row hrow
    rw [csvRowLine]
    congr 1
    exact range_map_get_pad (fun x : String => escapeCSVField x.data) "" row
      headers.length (halign row hrow)
  have hclean : ∀ x ∈
      (List.intercalate [','] (headers.map (fun h => escapeCSVField h.data)) ::
        rows.map (csvRowLine headers)), '\r' ∉ x := by
    intro x hx
    rcases List.mem_cons.mp hx with rfl | hx
    · apply not_mem_intercalate_single _ (by decide)
      intro f hf
      rw [List.mem_map] at hf
      obtain ⟨h0, hh0, rfl⟩ := hf
      exact not_mem_escapeCSVField (by decide) (hheaders h0 hh0).2.1
    · rw [List.mem_map] at hx
      obtain ⟨row, hrow, rfl⟩ := hx
      rw [hrowline row hrow]
      apply not_mem_intercalate_single _ (by decide)
      intro f hf
      rw [List.mem_map] at hf
      obtain ⟨cell, hcell, rfl⟩ := hf
      exact not_mem_escapeCSVField (by decide) (hcells row hrow cell hcell).2.1
  rw [hg, parseCSV_bom, splitCRLF_intercalate _ _ hclean, List.map_cons, List.map_cons]
  congr 1
  · rw [splitOnChar_intercalate ','
      (headers.map (fun h => escapeCSVField h.data))
      (by intro hmap; exact hne (by simpa using hmap))
      (by intro f hf
          rw [List.mem_map] at hf
          obtain ⟨h0, hh0, rfl⟩ := hf
          exact not_mem_escapeCSVField (by decide) (hheaders h0 hh0).1)]
    rw [List.map_map]
    apply List.map_congr_left
    intro h0 _
    exact unquote_escape h0.data
  · rw [List.map_map]
    apply List.map_congr_left
    intro row hrow
    simp only [Function.comp_apply]
    rw [hrowline row hrow]
    have hrowne : row ≠ [] := by
      intro hrnil
      apply hne
      apply List.eq_nil_of_length_eq_zero
      have hlen := halign row hrow
      rw [hrnil] at hlen
      simp only [List.length_nil] at hlen
      omega
    rw [splitOnChar_intercalate ','
      (row.map (fun cell => escapeCSVField cell.data))
      (by intro hmap; exact hrowne (by simpa using hmap))
      (by intro f hf
          rw [List.mem_map] at hf
          obtain ⟨cell, hcell, rfl⟩ := hf
          exact not_mem_escapeCSVField (by decide) (hcells row hrow cell hcell).1)]
    rw [List.map_map]
    apply List.map_congr_left
    intro cell _
    exact unquote_escape cell.data

/-- Witness for C7: a concrete two-column table with an internal quote
round-trips through the writer and the reader. -/
theorem generateCSV_roundTrip_witness :
    parseCSV (generateCSV none ["a", "b"] [["1", "x\"y"], ["2", ""]]) =
      ((["a", "b"] :: [["1", "x\"y"], ["2", ""]]).map (fun r => r.map String.data)) :=
  generateCSV_roundTrip ["a", "b"] [["1", "x\"y"], ["2", ""]]
    (by decide) (by decide) (by decide) (by decide)

end ClayScraper
